import Mathlib

/-!
Verification development for the json-idempofy core: a shallow embedding of
the JSON canonicalization engine (src/hashing.ts, JCS part), the value
normalizer and nested-path resolver (src/normalizers.ts), the field
transformation engine (transformations module, whose source is reproduced in
the repository README), the strategy layer (src/strategies.ts) and the
hashing configuration logic (src/hashing.ts).

Modelling conventions:
- JavaScript values are modelled by the inductive type `JValue`.  Numbers are
  modelled as mathematical integers plus the three non-finite values
  (`NaN`, `Infinity`, `-Infinity`); fractional doubles are outside the model.
- JavaScript strings are modelled by Lean `String` (sequences of Unicode
  scalar values).  String comparison used by `Array.prototype.sort()` is
  modelled by code-point lexicographic comparison, which agrees with the
  JS UTF-16 comparison on strings of BMP characters.
- `undefined` is the value `JValue.undef`; functions that may `throw` are
  modelled in the `Except String` monad.
- The external cryptographic collaborator (`createHash`/`createHmac`) is
  modelled by an abstract digest function parameter, and the random key
  generator by an abstract generated-key parameter.
-/

/-- Model of a JavaScript number: an integer, or one of the non-finite
values `NaN`, `Infinity`, `-Infinity`. -/
inductive JNum where
  | int (n : Int)
  | nan
  | inf
  | ninf
deriving DecidableEq

mutual
/-- Model of a JavaScript/JSON runtime value as handled by json-idempofy:
`null`, `undefined`, booleans, numbers, strings, `Date` objects (carrying
their epoch-millisecond timestamp), arrays and plain objects.  Objects are
ordered association lists, mirroring JS insertion order. -/
inductive JValue where
  | null
  | undef
  | bool (b : Bool)
  | num (n : JNum)
  | str (s : String)
  | date (ms : Int)
  | arr (elems : JArr)
  | obj (fields : JObj)
/-- List of JSON values (element list of a JS array). -/
inductive JArr where
  | nil
  | cons (hd : JValue) (tl : JArr)
/-- Ordered field list of a JS object (insertion order, as `Object.keys`
reports it). -/
inductive JObj where
  | nil
  | cons (key : String) (val : JValue) (tl : JObj)
end

/-- Conversion of a `JArr` to a Lean list. -/
def JArr.toList : JArr → List JValue
  | .nil => []
  | .cons x xs => x :: xs.toList

/-- Conversion of a Lean list to a `JArr`. -/
def JArr.ofList : List JValue → JArr
  | [] => .nil
  | x :: xs => .cons x (JArr.ofList xs)

/-- Conversion of a `JObj` to a Lean association list. -/
def JObj.toList : JObj → List (String × JValue)
  | .nil => []
  | .cons k v fs => (k, v) :: fs.toList

/-- Conversion of a Lean association list to a `JObj`. -/
def JObj.ofList : List (String × JValue) → JObj
  | [] => .nil
  | (k, v) :: fs => .cons k v (JObj.ofList fs)

/-- Tests whether a value is `undefined` (the JS `value === undefined`
check). -/
def JValue.isUndef : JValue → Bool
  | .undef => true
  | _ => false

/-- JavaScript truthiness: `false`, `0`, `NaN`, the empty string, `null` and
`undefined` are falsy; every object, array and date is truthy. -/
def jsFalsy : JValue → Bool
  | .null => true
  | .undef => true
  | .bool b => !b
  | .num (.int n) => n == 0
  | .num .nan => true
  | .num .inf => false
  | .num .ninf => false
  | .str s => s == ""
  | .date _ => false
  | .arr _ => false
  | .obj _ => false

/-! ## Character/string primitives

The model works with explicit character lists so that every operation is a
structurally recursive, kernel-computable function. -/

/-- Code-point lexicographic comparison of character lists; models the JS
string relational operators used by `Array.prototype.sort()` (identical to
UTF-16 code-unit order for BMP strings). -/
def charListLe : List Char → List Char → Bool
  | [], _ => true
  | _ :: _, [] => false
  | a :: as, b :: bs =>
    if a.toNat < b.toNat then true
    else if b.toNat < a.toNat then false
    else charListLe as bs

/-- Code-point lexicographic order on strings (see `charListLe`). -/
def strLe (a b : String) : Bool := charListLe a.data b.data

/-- ASCII lower-casing of one character; models the effect of
`String.prototype.toLowerCase()` on ASCII letters (the only case-folding the
model distinguishes). -/
def charToLower (c : Char) : Char :=
  if 65 ≤ c.toNat ∧ c.toNat ≤ 90 then Char.ofNat (c.toNat + 32) else c

/-- ASCII upper-casing of one character (`String.prototype.toUpperCase()`
on ASCII letters). -/
def charToUpper (c : Char) : Char :=
  if 97 ≤ c.toNat ∧ c.toNat ≤ 122 then Char.ofNat (c.toNat - 32) else c

/-- Model of `String.prototype.toLowerCase()` (ASCII case folding). -/
def strToLower (s : String) : String := ⟨s.data.map charToLower⟩

/-- Model of `String.prototype.toUpperCase()` (ASCII case folding). -/
def strToUpper (s : String) : String := ⟨s.data.map charToUpper⟩

/-- Characters removed by `String.prototype.trim()` (the common ASCII
whitespace subset of the JS WhiteSpace/LineTerminator classes). -/
def isJSSpace (c : Char) : Bool :=
  c == ' ' || c == '\t' || c == '\n' || c == '\r' || c == '\x0b' || c == '\x0c'

/-- Model of `String.prototype.trim()`. -/
def strTrim (s : String) : String :=
  ⟨((s.data.dropWhile isJSSpace).reverse.dropWhile isJSSpace).reverse⟩

/-- Model of `String.prototype.includes(c)` for a single character. -/
def strContainsChar (s : String) (c : Char) : Bool := s.data.contains c

/-- Stable insertion into a key-sorted association list: the new pair goes
after every existing pair whose key compares `≤` to it. -/
def insertByKey {β : Type} (p : String × β) : List (String × β) → List (String × β)
  | [] => [p]
  | q :: rest => if strLe q.1 p.1 then q :: insertByKey p rest else p :: q :: rest

/-- Stable insertion sort of an association list by key, in the code-point
order of `strLe`; models `keys.sort()` over the keys of a JS object (sorting
the pairs by key is equivalent since JS object keys are unique). -/
def sortByKey {β : Type} : List (String × β) → List (String × β)
  | [] => []
  | p :: rest => insertByKey p (sortByKey rest)

/-- Decimal digits of a natural number, accumulator form.  The first
argument is recursion fuel; `n` itself is always sufficient fuel since a
number has no more decimal digits than its value. -/
def natCharsAux : Nat → Nat → List Char → List Char
  | 0, _, acc => acc
  | fuel + 1, n, acc =>
    if n = 0 then acc
    else natCharsAux fuel (n / 10) (Nat.digitChar (n % 10) :: acc)

/-- Decimal representation of a natural number. -/
def natChars (n : Nat) : List Char :=
  if n = 0 then ['0'] else natCharsAux n n []

/-- Decimal representation of an integer; models the JS decimal printing of
an integer-valued number (`JSON.stringify(n)` / `String(n)`). -/
def intChars (n : Int) : List Char :=
  if n < 0 then '-' :: natChars n.natAbs else natChars n.natAbs

/-- Decimal string of an integer (JS `String(n)` for integer numbers). -/
def intStr (n : Int) : String := ⟨intChars n⟩

/-! ## Canonicalizer (JCS, src/hashing.ts lines 138-226)

The canonicalizer emits a character list; `canonicalize` packages it as a
string.  Emission of object members: the source sorts `Object.keys(obj)` and
serializes each looked-up value in sorted key order; the model serializes
each field in place (`canonObjPairs`) and then sorts the serialized pairs by
key (`sortByKey`), which produces the same member sequence because the sort
compares keys only.  `canonObj_eq_sort_first` below proves the
source-ordered form equal. -/

/-- Lower-case hexadecimal digit. -/
def hexChar (d : Nat) : Char :=
  if d < 10 then Nat.digitChar d else Char.ofNat (87 + d)

/-- JSON escaping of one character, as `JSON.stringify` performs it:
quote and backslash get two-character escapes, the five named control
characters get their short escapes, all other control characters below
U+0020 get a `\u00xx` escape, and every other character is emitted raw. -/
def escChar (c : Char) : List Char :=
  if c = '"' then ['\\', '"']
  else if c = '\\' then ['\\', '\\']
  else if c = '\x08' then ['\\', 'b']
  else if c = '\x09' then ['\\', 't']
  else if c = '\x0a' then ['\\', 'n']
  else if c = '\x0c' then ['\\', 'f']
  else if c = '\x0d' then ['\\', 'r']
  else if c.toNat < 32 then
    ['\\', 'u', '0', '0', hexChar (c.toNat / 16), hexChar (c.toNat % 16)]
  else [c]

/-- JSON escaping of a character list (body of a quoted string). -/
def escChars : List Char → List Char
  | [] => []
  | c :: cs => escChar c ++ escChars cs

/-- Characters of `canonicalizeString`: a double-quoted, JSON-escaped
string (the source delegates to `JSON.stringify(str)`). -/
def canonStrChars (s : String) : List Char :=
  '"' :: escChars s.data ++ ['"']

/-- Model of `canonicalizeString` (src/hashing.ts line 183). -/
def canonicalizeString (s : String) : String := ⟨canonStrChars s⟩

/-- Characters of `canonicalizeNumber` (src/hashing.ts line 170): finite
numbers print in their decimal representation, non-finite numbers print as
`null`. -/
def canonNumChars : JNum → List Char
  | .int n => intChars n
  | .nan => "null".data
  | .inf => "null".data
  | .ninf => "null".data

/-- Comma-joined concatenation of serialized elements
(`elements.join(older)` with separator `,`). -/
def commaJoin : List (List Char) → List Char
  | [] => []
  | [x] => x
  | x :: xs => x ++ ',' :: commaJoin xs

/-- Emission of serialized object members: each `(key, serializedValue)`
pair becomes `"key":value`. -/
def emitPairs : List (String × List Char) → List (List Char)
  | [] => []
  | (k, v) :: rest => (canonStrChars k ++ ':' :: v) :: emitPairs rest

mutual
/-- Characters of `canonicalize` (src/hashing.ts line 138): `null` and
unsupported runtime types (here `undefined`) emit `null`; booleans emit
`true`/`false`; numbers and strings via their canonicalizers; arrays emit
bracketed comma-joined elements; objects emit brace-wrapped members in
sorted key order.  A `Date` reaches the object branch (`typeof` is
`"object"`, not an array) and has no own enumerable keys, so it emits the
empty object. -/
def canonChars : JValue → List Char
  | .null => "null".data
  | .undef => "null".data
  | .bool b => if b then "true".data else "false".data
  | .num n => canonNumChars n
  | .str s => canonStrChars s
  | .date _ => ['\x7b', '\x7d']
  | .arr xs => '[' :: commaJoin (canonArr xs) ++ [']']
  | .obj fs => '\x7b' :: commaJoin (emitPairs (sortByKey (canonObjPairs fs))) ++ ['\x7d']
/-- Serialized elements of an array, in order. -/
def canonArr : JArr → List (List Char)
  | .nil => []
  | .cons x xs => canonChars x :: canonArr xs
/-- Fields of an object paired with their serialized values, in insertion
order (sorted afterwards by `canonChars`). -/
def canonObjPairs : JObj → List (String × List Char)
  | .nil => []
  | .cons k v fs => (k, canonChars v) :: canonObjPairs fs
end

/-- Model of `canonicalize` (src/hashing.ts line 138): the canonical JCS
serialization of a value. -/
def canonicalize (v : JValue) : String := ⟨canonChars v⟩

/-- Model of `toJCSString` (src/hashing.ts line 224), an alias of
`canonicalize`. -/
def toJCSString (v : JValue) : String := canonicalize v

/-! ## JSON parser (model of `JSON.parse` used by `isJCSCompliant`)

`isJCSCompliant` (src/hashing.ts line 231) reparses its input with
`JSON.parse`, re-canonicalizes and compares.  The parser below models
`JSON.parse` on the sublanguage the model covers: numbers are integers
(fraction/exponent forms are outside the number model), strings may not
contain raw control characters, and `\u` escapes must denote Unicode scalar
values.  Canonical serializations contain no whitespace, so the parser does
not skip whitespace; on inputs with whitespace both the model and the
source return `false` from `isJCSCompliant` (the source because the
reserialized form never contains the whitespace).  Recursion is fueled; the
fuel `length + 1` used by `parseJson` is proved sufficient for canonical
inputs. -/

/-- Decimal digit test. -/
def isDigitChar (c : Char) : Bool := 48 ≤ c.toNat && c.toNat ≤ 57

/-- Value of a decimal digit character. -/
def digitVal (c : Char) : Nat := c.toNat - 48

/-- Value of a hexadecimal digit character (both cases accepted, as in
JSON `\u` escapes). -/
def hexVal (c : Char) : Option Nat :=
  if 48 ≤ c.toNat ∧ c.toNat ≤ 57 then some (c.toNat - 48)
  else if 97 ≤ c.toNat ∧ c.toNat ≤ 102 then some (c.toNat - 87)
  else if 65 ≤ c.toNat ∧ c.toNat ≤ 70 then some (c.toNat - 55)
  else none

/-- Decoding of a single-character JSON escape (`\u` is handled
separately). -/
def decodeEsc (e : Char) : Option Char :=
  if e = '"' then some '"'
  else if e = '\\' then some '\\'
  else if e = '/' then some '/'
  else if e = 'b' then some '\x08'
  else if e = 'f' then some '\x0c'
  else if e = 'n' then some '\x0a'
  else if e = 'r' then some '\x0d'
  else if e = 't' then some '\x09'
  else none

/-- Character for a Unicode scalar value, when the code is one (surrogate
code points are not representable; JSON.parse would produce a lone
surrogate there, which the model rejects). -/
def charOfCode (code : Nat) : Option Char :=
  if code < 0xd800 ∨ (0xdfff < code ∧ code < 0x110000) then some (Char.ofNat code)
  else none

/-- Parses the body of a JSON string after the opening quote, returning the
decoded characters and the input following the closing quote. -/
def parseStringBody : List Char → Option (List Char × List Char)
  | [] => none
  | c :: rest =>
    if c = '"' then some ([], rest)
    else if c = '\\' then
      match rest with
      | [] => none
      | e :: rest2 =>
        if e = 'u' then
          match rest2 with
          | h1 :: h2 :: h3 :: h4 :: rest3 => do
            let a ← hexVal h1
            let b ← hexVal h2
            let c2 ← hexVal h3
            let d ← hexVal h4
            let ch ← charOfCode (a * 4096 + b * 256 + c2 * 16 + d)
            let (cs, r) ← parseStringBody rest3
            some (ch :: cs, r)
          | _ => none
        else do
          let ch ← decodeEsc e
          let (cs, r) ← parseStringBody rest2
          some (ch :: cs, r)
    else if c.toNat < 32 then none
    else do
      let (cs, r) ← parseStringBody rest
      some (c :: cs, r)

/-- Accumulating decimal value of a digit run. -/
def digitsVal (acc : Nat) : List Char → Nat
  | [] => acc
  | c :: cs => digitsVal (acc * 10 + digitVal c) cs

/-- Parses a JSON number at the head of the input.  The model covers the
integer forms (optional minus sign and a digit run), matching the integer
number model. -/
def parseNumberChars (cs : List Char) : Option (JValue × List Char) :=
  let signed : Bool × List Char :=
    match cs with
    | c :: t => if c = '-' then (true, t) else (false, c :: t)
    | [] => (false, [])
  let ds := signed.2.takeWhile isDigitChar
  let rest := signed.2.dropWhile isDigitChar
  if ds.isEmpty then none
  else
    let n : Int := Int.ofNat (digitsVal 0 ds)
    some (.num (.int (if signed.1 then -n else n)), rest)

/-- JavaScript property assignment `acc[k] = v`: replaces the value in
place when the key exists, appends otherwise.  Used both by the parser
(`JSON.parse` object building) and by the normalizer loop. -/
def insertObj : JObj → String → JValue → JObj
  | .nil, k, v => .cons k v .nil
  | .cons k' v' tl, k, v =>
    if k' == k then .cons k' v tl else .cons k' v' (insertObj tl k v)

/-- Strips an expected literal prefix from the input. -/
def stripPrefixCs : List Char → List Char → Option (List Char)
  | [], cs => some cs
  | _ :: _, [] => none
  | p :: ps, c :: cs => if c = p then stripPrefixCs ps cs else none

mutual
/-- Parses one JSON value at the head of the input. -/
def parseValue : Nat → List Char → Option (JValue × List Char)
  | 0, _ => none
  | fuel + 1, cs =>
    match cs with
    | [] => none
    | c :: rest =>
      if c = 'n' then (stripPrefixCs "ull".data rest).map fun r => (.null, r)
      else if c = 't' then (stripPrefixCs "rue".data rest).map fun r => (.bool true, r)
      else if c = 'f' then (stripPrefixCs "alse".data rest).map fun r => (.bool false, r)
      else if c = '"' then (parseStringBody rest).map fun p => (.str ⟨p.1⟩, p.2)
      else if c = '[' then
        match rest with
        | ']' :: r => some (.arr .nil, r)
        | _ => (parseElems fuel rest).map fun p => (.arr p.1, p.2)
      else if c = '\x7b' then
        match rest with
        | '\x7d' :: r => some (.obj .nil, r)
        | _ => (parseMembers fuel .nil rest).map fun p => (.obj p.1, p.2)
      else parseNumberChars (c :: rest)
/-- Parses the non-empty element list of an array, up to and including the
closing bracket. -/
def parseElems : Nat → List Char → Option (JArr × List Char)
  | 0, _ => none
  | fuel + 1, cs => do
    let (v, cs1) ← parseValue fuel cs
    match cs1 with
    | [] => none
    | c :: cs2 =>
      if c = ',' then (parseElems fuel cs2).map fun p => (.cons v p.1, p.2)
      else if c = ']' then some (.cons v .nil, cs2)
      else none
/-- Parses the non-empty member list of an object, up to and including the
closing brace, assigning members in order (later duplicate keys overwrite
earlier values in place, as in `JSON.parse`). -/
def parseMembers : Nat → JObj → List Char → Option (JObj × List Char)
  | 0, _, _ => none
  | fuel + 1, acc, cs =>
    match cs with
    | [] => none
    | c :: cs0 =>
      if c = '"' then do
        let (kcs, cs1) ← parseStringBody cs0
        match cs1 with
        | [] => none
        | c1 :: cs2 =>
          if c1 = ':' then do
            let (v, cs3) ← parseValue fuel cs2
            match cs3 with
            | [] => none
            | c3 :: cs4 =>
              if c3 = ',' then parseMembers fuel (insertObj acc ⟨kcs⟩ v) cs4
              else if c3 = '\x7d' then some (insertObj acc ⟨kcs⟩ v, cs4)
              else none
          else none
      else none
end

/-- Model of `JSON.parse(str)` on the modelled sublanguage: the parse
succeeds when one JSON value consumes the entire input. -/
def parseJson (s : String) : Option JValue :=
  match parseValue (s.data.length + 1) s.data with
  | some (v, []) => some v
  | _ => none

/-- Model of `isJCSCompliant` (src/hashing.ts line 231): reparse the
string, re-canonicalize and compare for exact equality; any parse failure
(the `catch` branch) yields `false`. -/
def isJCSCompliant (s : String) : Bool :=
  match parseJson s with
  | some v => canonicalize v == s
  | none => false

/-! ## Date arithmetic (model of `Date.prototype.toISOString` and ISO date
parsing by the `Date` constructor)

A JS `Date` is its epoch-millisecond timestamp.  `toISOString` renders it in
the `YYYY-MM-DDTHH:mm:ss.sssZ` UTC form; the civil-calendar conversion uses
the standard days-from-epoch algorithm.  The `Date` string constructor is
modelled on the ISO UTC subset `YYYY-MM-DD(THH:mm(:ss(.sss)?)?Z)?` (other
inputs, which real JS may parse as local time or via lenient heuristics,
are outside the model and map to an invalid date). -/

/-- Leap year test (proleptic Gregorian). -/
def isLeap (y : Int) : Bool :=
  (y.emod 4 == 0 && y.emod 100 != 0) || y.emod 400 == 0

/-- Number of days in a month. -/
def daysInMonth (y : Int) (m : Nat) : Nat :=
  match m with
  | 1 => 31 | 2 => if isLeap y then 29 else 28 | 3 => 31 | 4 => 30
  | 5 => 31 | 6 => 30 | 7 => 31 | 8 => 31 | 9 => 30 | 10 => 31
  | 11 => 30 | 12 => 31 | _ => 0

/-- Civil date (year, month, day) of a day count from 1970-01-01. -/
def civilFromDays (z0 : Int) : Int × Int × Int :=
  let z := z0 + 719468
  let era := z.fdiv 146097
  let doe := z - era * 146097
  let yoe := (doe - doe.fdiv 1460 + doe.fdiv 36524 - doe.fdiv 146096).fdiv 365
  let y := yoe + era * 400
  let doy := doe - (365 * yoe + yoe.fdiv 4 - yoe.fdiv 100)
  let mp := (5 * doy + 2).fdiv 153
  let d := doy - (153 * mp + 2).fdiv 5 + 1
  let m := mp + (if mp < 10 then 3 else (-9 : Int))
  (y + (if m ≤ 2 then 1 else 0), m, d)

/-- Day count from 1970-01-01 of a civil date. -/
def daysFromCivil (y : Int) (m d : Nat) : Int :=
  let y2 := y - (if m ≤ 2 then 1 else 0)
  let era := y2.fdiv 400
  let yoe := y2 - era * 400
  let mp : Int := (Int.ofNat m + 9).emod 12
  let doy := (153 * mp + 2).fdiv 5 + Int.ofNat d - 1
  let doe := yoe * 365 + yoe.fdiv 4 - yoe.fdiv 100 + doy
  era * 146097 + doe - 719468

/-- Decimal digits left-padded with zeros to the given width. -/
def padNat (width n : Nat) : List Char :=
  let ds := natChars n
  List.replicate (width - ds.length) '0' ++ ds

/-- Model of `Date.prototype.toISOString()`: the
`YYYY-MM-DDTHH:mm:ss.sssZ` UTC rendering of an epoch-millisecond
timestamp (years outside 0..9999 use the expanded six-digit form). -/
def toISOString (ms : Int) : String :=
  let days := ms.fdiv 86400000
  let tod := (ms - days * 86400000).toNat
  let ymd := civilFromDays days
  let hh := tod / 3600000
  let mi := tod % 3600000 / 60000
  let ss := tod % 60000 / 1000
  let fff := tod % 1000
  let yearChars :=
    if 0 ≤ ymd.1 ∧ ymd.1 ≤ 9999 then padNat 4 ymd.1.toNat
    else if ymd.1 < 0 then '-' :: padNat 6 ymd.1.natAbs
    else '+' :: padNat 6 ymd.1.toNat
  ⟨yearChars ++ '-' :: padNat 2 ymd.2.1.toNat ++ '-' :: padNat 2 ymd.2.2.toNat ++
    'T' :: padNat 2 hh ++ ':' :: padNat 2 mi ++ ':' :: padNat 2 ss ++
    '.' :: padNat 3 fff ++ ['Z']⟩

/-- Reads two decimal digits. -/
def read2 : List Char → Option (Nat × List Char)
  | a :: b :: rest =>
    if isDigitChar a && isDigitChar b then some (10 * digitVal a + digitVal b, rest)
    else none
  | _ => none

/-- Reads three decimal digits. -/
def read3 : List Char → Option (Nat × List Char)
  | a :: rest =>
    if isDigitChar a then (read2 rest).map fun p => (100 * digitVal a + p.1, p.2)
    else none
  | _ => none

/-- Reads four decimal digits. -/
def read4 : List Char → Option (Nat × List Char)
  | a :: b :: rest =>
    if isDigitChar a && isDigitChar b then
      (read2 rest).map fun p => (1000 * digitVal a + 100 * digitVal b + p.1, p.2)
    else none
  | _ => none

/-- Model of `new Date(str).getTime()` for the ISO UTC subset
`YYYY-MM-DD(THH:mm(:ss(.sss)?)?Z)?`: `some` epoch milliseconds for a valid
timestamp, `none` for an invalid date (`NaN` time value). -/
def parseDateJS (s : String) : Option Int := do
  let (y, r1) ← read4 s.data
  match r1 with
  | '-' :: r2 => do
    let (mo, r3) ← read2 r2
    match r3 with
    | '-' :: r4 => do
      let (dd, r5) ← read2 r4
      if 1 ≤ mo ∧ mo ≤ 12 ∧ 1 ≤ dd ∧ dd ≤ daysInMonth (Int.ofNat y) mo then
        let base := daysFromCivil (Int.ofNat y) mo dd * 86400000
        match r5 with
        | [] => some base
        | 'T' :: r6 => do
          let (hh, r7) ← read2 r6
          match r7 with
          | ':' :: r8 => do
            let (mi, r9) ← read2 r8
            let tail1 : Option (Nat × Nat × List Char) :=
              match r9 with
              | ':' :: r10 =>
                (read2 r10).bind fun p =>
                  match p.2 with
                  | '.' :: r12 => (read3 r12).map fun q => (p.1, q.1, q.2)
                  | other => some (p.1, 0, other)
              | other => some (0, 0, other)
            let (ss, fff, r14) ← tail1
            if hh ≤ 23 ∧ mi ≤ 59 ∧ ss ≤ 59 ∧ r14 = ['Z'] then
              some (base + Int.ofNat (hh * 3600000 + mi * 60000 + ss * 1000 + fff))
            else none
          | _ => none
        | _ => none
      else none
    | _ => none
  | _ => none

/-! ## Normalizer (src/normalizers.ts lines 7-93) -/

/-- Model of the `NormalizationOptions` interface: every switch is optional
(`none` models an absent property). -/
structure NormalizationOptions where
  normalizeDates : Option Bool := none
  precision : Option Nat := none
  excludeNulls : Option Bool := none
  excludeEmptyStrings : Option Bool := none
  sortKeys : Option Bool := none
  trimStrings : Option Bool := none
  caseSensitive : Option Bool := none
  useJCS : Option Bool := none

/-- Truthiness of an optional boolean property (absent and `false` are both
falsy). -/
def optTruthy (o : Option Bool) : Bool := o == some true

/-- Model of `Math.round(value * 10^p) / 10^p` on the number model: on an
integer-valued number the expression is exactly the identity (the product
is an integer, `Math.round` fixes it, and the division restores the
original value); non-finite numbers propagate unchanged
(`NaN`/`Infinity` arithmetic). -/
def roundToPrecision : JNum → Nat → JNum
  | .int x, _ => .int x
  | n, _ => n

/-- Filters `undefined` out of an array
(`.filter((item) => item !== undefined)`). -/
def filterDefined : JArr → JArr
  | .nil => .nil
  | .cons x xs => if x.isUndef then filterDefined xs else .cons x (filterDefined xs)

/-- Object-building loop of `normalizeValue`: each field contributes its
normalized key and normalized value; fields whose normalized value is
`undefined` are omitted; assignment uses JS property-update semantics
(`insertObj`). -/
def buildNormObj : List (String × String × JValue) → JObj → JObj
  | [], acc => acc
  | (_, nk, nv) :: rest, acc =>
    buildNormObj rest (if nv.isUndef then acc else insertObj acc nk nv)

mutual
/-- Model of `normalizeValue` (src/normalizers.ts line 7) on tree-shaped
values.  A tree value has no shared or cyclic object references, so the
`seen` WeakSet of the source never contains a revisited object and is
dropped here; the reference behaviour is modelled separately by
`normalizeValueH` below.  For objects, the source iterates the (optionally
sorted) keys, normalizing each looked-up value in order; the model first
normalizes each field in place (`normObjFields`), then orders the fields by
original key and runs the assignment loop (`buildNormObj`) — the same
result, since normalization of a field does not depend on its position. -/
def normalizeValue (opts : NormalizationOptions) : JValue → JValue
  | .null => if optTruthy opts.excludeNulls then .undef else .null
  | .undef => if optTruthy opts.excludeNulls then .undef else .undef
  | .bool b => .bool b
  | .str s =>
    if optTruthy opts.excludeEmptyStrings && s == "" then .undef
    else
      let s1 := if optTruthy opts.trimStrings then strTrim s else s
      let s2 := if !optTruthy opts.caseSensitive then strToLower s1 else s1
      .str s2
  | .num n =>
    match opts.precision with
    | some p => .num (roundToPrecision n p)
    | none => .num n
  | .date ms => if optTruthy opts.normalizeDates then .str (toISOString ms) else .date ms
  | .arr xs => .arr (filterDefined (normArrVals opts xs))
  | .obj fs =>
    let pairs := normObjFields opts fs
    let ordered := if optTruthy opts.sortKeys then sortByKey pairs else pairs
    .obj (buildNormObj ordered .nil)
/-- Elementwise normalization of an array (the `.map` step; filtering
follows in `normalizeValue`). -/
def normArrVals (opts : NormalizationOptions) : JArr → JArr
  | .nil => .nil
  | .cons x xs => .cons (normalizeValue opts x) (normArrVals opts xs)
/-- Fields of an object paired with their normalized key and normalized
value, in insertion order. -/
def normObjFields (opts : NormalizationOptions) : JObj → List (String × String × JValue)
  | .nil => []
  | .cons k v fs =>
    (k, (if optTruthy opts.caseSensitive then k else strToLower k), normalizeValue opts v) ::
      normObjFields opts fs
end

mutual
/-- Model of `JSON.stringify` (non-canonical serializer used when `useJCS`
is disabled): insertion-order members, `undefined` members omitted,
`undefined` array elements rendered as `null`, dates rendered as their
quoted ISO string (the `Date.prototype.toJSON` behaviour), non-finite
numbers as `null`.  The result is `none` exactly when the value itself is
`undefined`, where `JSON.stringify` returns the `undefined` value. -/
def stringifyNC : JValue → Option (List Char)
  | .null => some "null".data
  | .undef => none
  | .bool b => some (if b then "true".data else "false".data)
  | .num n => some (canonNumChars n)
  | .str s => some (canonStrChars s)
  | .date ms => some (canonStrChars (toISOString ms))
  | .arr xs => some ('[' :: commaJoin (stringifyNCArr xs) ++ [']'])
  | .obj fs => some ('\x7b' :: commaJoin (emitPairs (stringifyNCObj fs)) ++ ['\x7d'])
/-- Array elements under `JSON.stringify` (`undefined` becomes `null`). -/
def stringifyNCArr : JArr → List (List Char)
  | .nil => []
  | .cons x xs =>
    (match stringifyNC x with
      | some cs => cs
      | none => "null".data) :: stringifyNCArr xs
/-- Object members under `JSON.stringify` (`undefined` members omitted). -/
def stringifyNCObj : JObj → List (String × List Char)
  | .nil => []
  | .cons k v fs =>
    match stringifyNC v with
    | some cs => (k, cs) :: stringifyNCObj fs
    | none => stringifyNCObj fs
end

/-- Model of `createDeterministicString` (src/normalizers.ts line 82):
normalize, then serialize with JCS unless `useJCS` is explicitly `false`,
else with plain `JSON.stringify`.  In the disabled-JCS corner where the
whole normalized payload is `undefined`, `JSON.stringify` returns the
`undefined` value; the model renders the string `"undefined"` there (no
claim exercises that corner — every strategy leaves `useJCS` unset). -/
def createDeterministicString (obj : JValue) (options : NormalizationOptions) : String :=
  let normalized := normalizeValue options obj
  if options.useJCS != some false then toJCSString normalized
  else
    match stringifyNC normalized with
    | some cs => ⟨cs⟩
    | none => "undefined"

/-! ## Nested field access (src/normalizers.ts lines 127-238) -/

/-- A parsed path segment: a field name, or the number produced by
`parseInt` for a bracketed segment (`none` models `NaN`). -/
inductive PathKey where
  | str (s : String)
  | num (n : Option Int)
deriving DecidableEq

/-- Accumulating value of a digit run on top of `acc`. -/
def digitsValInt (acc : Int) : List Char → Int
  | [] => acc
  | c :: cs => digitsValInt (acc * 10 + Int.ofNat (digitVal c)) cs

/-- Model of `parseInt(s, 10)`: skip leading whitespace, optional sign,
then a maximal digit run (trailing garbage ignored); `none` models `NaN`
when no digit is found. -/
def parseIntJS (s : String) : Option Int :=
  let cs := s.data.dropWhile isJSSpace
  let signed : Bool × List Char :=
    match cs with
    | '-' :: t => (true, t)
    | '+' :: t => (false, t)
    | _ => (false, cs)
  let ds := signed.2.takeWhile isDigitChar
  if ds.isEmpty then none
  else some ((if signed.1 then -1 else 1) * digitsValInt 0 ds)

/-- Character loop of `parsePath` (src/normalizers.ts line 135): `current`
is the accumulated segment text, `inBrackets` the bracket state.  `[`
flushes the pending segment and opens a bracket; `]` closes a bracket by
pushing `parseInt(current)` (and is dropped when no bracket is open); `.`
flushes the pending segment; any other character accumulates.  A nonempty
trailing segment is pushed as a string, even if a bracket was left open. -/
def parsePathAux : List Char → List Char → Bool → List PathKey
  | [], current, _ =>
    if current.isEmpty then [] else [.str ⟨current⟩]
  | c :: rest, current, inBrackets =>
    if c = '[' then
      (if current.isEmpty then [] else [PathKey.str ⟨current⟩]) ++ parsePathAux rest [] true
    else if c = ']' then
      if inBrackets then .num (parseIntJS ⟨current⟩) :: parsePathAux rest [] false
      else parsePathAux rest current inBrackets
    else if c = '.' then
      (if current.isEmpty then [] else [PathKey.str ⟨current⟩]) ++ parsePathAux rest [] inBrackets
    else parsePathAux rest (current ++ [c]) inBrackets

/-- Model of `parsePath` (src/normalizers.ts line 135). -/
def parsePath (path : String) : List PathKey := parsePathAux path.data [] false

/-- JS property-key coercion of a path segment: numbers become their
decimal string, `NaN` becomes `"NaN"`. -/
def keyPropString : PathKey → String
  | .str s => s
  | .num (some n) => intStr n
  | .num none => "NaN"

/-- Own-property lookup on an object (`hasOwnProperty` + access). -/
def lookupObj : JObj → String → Option JValue
  | .nil, _ => none
  | .cons k v fs, key => if k == key then some v else lookupObj fs key

/-- Length of an array. -/
def arrLen : JArr → Nat
  | .nil => 0
  | .cons _ xs => arrLen xs + 1

/-- Element of an array at an index. -/
def arrGet : JArr → Nat → Option JValue
  | .nil, _ => none
  | .cons x _, 0 => some x
  | .cons _ xs, n + 1 => arrGet xs n

/-- Walk loop of `getNestedValue` (src/normalizers.ts lines 182-206): a
`null`/`undefined` intermediate short-circuits to `undefined`; a
non-object intermediate yields `undefined`; arrays accept only an in-range
numeric segment; objects look the segment up as an own property under JS
property-key coercion (so a numeric segment reads the corresponding
decimal string key); a `Date` reaches the object branch and has no own
properties. -/
def walkKeys : List PathKey → JValue → JValue
  | [], current => current
  | k :: ks, current =>
    match current with
    | .null => .undef
    | .undef => .undef
    | .bool _ => .undef
    | .num _ => .undef
    | .str _ => .undef
    | .date _ => .undef
    | .arr xs =>
      match k with
      | .num (some n) =>
        if 0 ≤ n ∧ n < Int.ofNat (arrLen xs) then
          walkKeys ks ((arrGet xs n.toNat).getD .undef)
        else .undef
      | _ => .undef
    | .obj fs =>
      match lookupObj fs (keyPropString k) with
      | some v => walkKeys ks v
      | none => (.undef)

/-- Model of `getNestedValue` (src/normalizers.ts line 176): guard against
an empty path or a falsy receiver, then walk the parsed path. -/
def getNestedValue (obj : JValue) (path : String) : JValue :=
  if path == "" || jsFalsy obj then .undef
  else walkKeys (parsePath path) obj

/-- Model of the direct property access `obj[path]` used by the
dotted-key fallback: an own-property lookup on an object; any other
receiver has no own property named by a dotted path. -/
def propAccess (o : JValue) (key : String) : JValue :=
  match o with
  | .obj fs => (lookupObj fs key).getD .undef
  | _ => (.undef)

/-- Model of `getNestedValueEnhanced` (src/normalizers.ts line 216): try
nested access first; when it yields `undefined` and the raw path contains
a dot, fall back to the whole path as one literal key. -/
def getNestedValueEnhanced (obj : JValue) (path : String) : JValue :=
  if path == "" || jsFalsy obj then .undef
  else
    let nestedResult := getNestedValue obj path
    if !nestedResult.isUndef then nestedResult
    else if strContainsChar path '.' then propAccess obj path
    else (.undef)

/-- Model of `hasNestedValue` (src/normalizers.ts line 236). -/
def hasNestedValue (obj : JValue) (path : String) : Bool :=
  !((getNestedValue obj path).isUndef)

/-- Observer used to state presence claims: walks the same container steps
as `getNestedValue` but distinguishes a present member holding `undefined`
(result `some JValue.undef`) from a missing member (result `none`).  This
definition exists only to phrase theorems; it is not part of the source. -/
def storedAt : JValue → List PathKey → Option JValue
  | v, [] => some v
  | .arr xs, .num (some n) :: ks =>
    if 0 ≤ n ∧ n < Int.ofNat (arrLen xs) then
      match arrGet xs n.toNat with
      | some v => storedAt v ks
      | none => none
    else none
  | .obj fs, k :: ks =>
    match lookupObj fs (keyPropString k) with
    | some v => storedAt v ks
    | none => none
  | _, _ :: _ => none

/-! ## Transformation engine (transformations module; source reproduced in
README lines 691-801) -/

/-- Tests whether a value is `null`. -/
def JValue.isNull : JValue → Bool
  | .null => true
  | _ => false

/-- Model of the `FieldTransformation` union: one active operator per
spec, or a direct field reference. -/
inductive FieldTransformation where
  | direct (path : String)
  | date (path : String)
  | round (p : Nat)
  | lower (path : String)
  | upper (path : String)
  | trim (path : String)
  | replace (fromPat toPat : String)
  | cond (condition thenPath : String) (elsePath : Option String)
  | existsT (path : String)
  | defaultT (v : JValue)

/-- Model of `applyTransformation` (README lines 696-779).  Failure
(`Except.error`) models a thrown exception: the `$date` branch calls
`new Date(value).toISOString()` on every string value, and `toISOString`
throws a `RangeError` (`Invalid time value`) when the string did not parse
as a date.  `$replace` is modelled for literal patterns (the source builds
a global `RegExp` from the pattern). -/
def applyTransformation (payload : JValue) (field : String) :
    FieldTransformation → Except String JValue
  | .direct path => .ok (getNestedValue payload path)
  | .date path =>
    match getNestedValue payload path with
    | .date ms => .ok (.str (toISOString ms))
    | .str s =>
      match parseDateJS s with
      | some ms => .ok (.str (toISOString ms))
      | none => .error "Invalid time value"
    | v => .ok v
  | .round p =>
    match getNestedValue payload field with
    | .num n => .ok (.num (roundToPrecision n p))
    | v => .ok v
  | .lower path =>
    match getNestedValue payload path with
    | .str s => .ok (.str (strToLower s))
    | v => .ok v
  | .upper path =>
    match getNestedValue payload path with
    | .str s => .ok (.str (strToUpper s))
    | v => .ok v
  | .trim path =>
    match getNestedValue payload path with
    | .str s => .ok (.str (strTrim s))
    | v => .ok v
  | .replace fromPat toPat =>
    match getNestedValue payload field with
    | .str s => .ok (.str (s.replace fromPat toPat))
    | v => .ok v
  | .cond c t e =>
    if !jsFalsy (getNestedValue payload c) then .ok (getNestedValue payload t)
    else
      match e with
      | some els => if els == "" then .ok .undef else .ok (getNestedValue payload els)
      | none => .ok .undef
  | .existsT path =>
    let value := getNestedValue payload path
    .ok (.bool (!value.isUndef && !value.isNull))
  | .defaultT d =>
    let value := getNestedValue payload field
    if !value.isUndef && !value.isNull then .ok value else .ok d

/-- JS truthiness of a transformation spec (`transformations[field]` is
tested truthy before use): the only falsy spec is the empty direct
reference. -/
def ftTruthy : FieldTransformation → Bool
  | .direct s => s != ""
  | _ => true

/-- Association-list lookup of a field transformation. -/
def lookupTf : List (String × FieldTransformation) → String → Option FieldTransformation
  | [], _ => none
  | (k, t) :: rest, key => if k == key then some t else lookupTf rest key

/-- Model of the `IdempotencyConfig` interface (hashing configuration is
handled separately at the digest boundary). -/
structure IdempotencyConfig where
  strategy : Option String := none
  fields : Option (List String) := none
  transformations : List (String × FieldTransformation) := []
  options : NormalizationOptions := {}

/-- Resolution of one requested field: through its registered (truthy)
transformation when one exists, else through plain path resolution. -/
def extractFieldValue (payload : JValue)
    (tfs : List (String × FieldTransformation)) (f : String) :
    Except String JValue :=
  match lookupTf tfs f with
  | some t =>
    if ftTruthy t then applyTransformation payload f t
    else .ok (getNestedValue payload f)
  | none => .ok (getNestedValue payload f)

/-- Field loop of `extractFields`: each requested field is resolved and
assigned into the accumulator object. -/
def extractFieldsLoop (payload : JValue)
    (tfs : List (String × FieldTransformation)) :
    List String → JObj → Except String JObj
  | [], acc => .ok acc
  | f :: rest, acc => do
    let v ← extractFieldValue payload tfs f
    extractFieldsLoop payload tfs rest (insertObj acc f v)

/-- Model of `extractFields` (README lines 786-801): an empty field list
passes the payload through unchanged; otherwise the requested fields are
extracted in order. -/
def extractFields (payload : JValue) (config : IdempotencyConfig) :
    Except String JValue :=
  let fields := config.fields.getD []
  if fields.isEmpty then .ok payload
  else (extractFieldsLoop payload config.transformations fields .nil).map .obj

/-! ## Strategy layer (src/strategies.ts)

Each strategy is modelled up to the canonical normalized string it feeds
to the hashing collaborator; the reported fingerprint is the digest of
that string, so fingerprints are equal exactly when these strings are
equal (for an injective digest, different exactly when they differ). -/

/-- Property-wise merge `{...defaults, ...overrides}`: a present override
property wins, an absent one falls back to the default. -/
def mergeOptions (defaults overrides : NormalizationOptions) : NormalizationOptions where
  normalizeDates := overrides.normalizeDates <|> defaults.normalizeDates
  precision := overrides.precision <|> defaults.precision
  excludeNulls := overrides.excludeNulls <|> defaults.excludeNulls
  excludeEmptyStrings := overrides.excludeEmptyStrings <|> defaults.excludeEmptyStrings
  sortKeys := overrides.sortKeys <|> defaults.sortKeys
  trimStrings := overrides.trimStrings <|> defaults.trimStrings
  caseSensitive := overrides.caseSensitive <|> defaults.caseSensitive
  useJCS := overrides.useJCS <|> defaults.useJCS

/-- Option defaults of `selectiveStrategy` (src/strategies.ts lines
41-48). -/
def selectiveDefaults : NormalizationOptions where
  normalizeDates := some true
  sortKeys := some true
  excludeNulls := some true
  trimStrings := some true
  caseSensitive := some false

/-- Model of `selectiveStrategy` (src/strategies.ts line 35) up to the
hashed string: an empty or absent field list is an error; otherwise the
extracted fields are normalized (selective defaults, caller options
override) and canonicalized. -/
def selectiveStrategyString (payload : JValue) (config : IdempotencyConfig) :
    Except String String :=
  if (config.fields.getD []).isEmpty then
    .error "Selective strategy requires fields to be specified"
  else do
    let extracted ← extractFields payload config
    .ok (createDeterministicString extracted (mergeOptions selectiveDefaults config.options))

/-- Model of `isISODateString` (src/strategies.ts line 152): the string
parses as a date and contains both `T` and `Z`. -/
def isISODateString (s : String) : Bool :=
  (parseDateJS s).isSome && strContainsChar s 'T' && strContainsChar s 'Z'

mutual
/-- Model of `preprocessDates` (src/strategies.ts line 121): recursively
converts date values, and ISO-date-looking strings, to the canonical ISO
form; everything else passes through structurally.  In the string branch
the source calls `new Date(obj).toISOString()` only after
`isISODateString` has certified the parse, so the parse cannot fail
there. -/
def preprocessDates : JValue → JValue
  | .null => .null
  | .undef => .undef
  | .bool b => .bool b
  | .num n => .num n
  | .date ms => .str (toISOString ms)
  | .str s =>
    if isISODateString s then
      match parseDateJS s with
      | some ms => .str (toISOString ms)
      | none => .str s
    else .str s
  | .arr xs => .arr (preprocessDatesArr xs)
  | .obj fs => .obj (preprocessDatesObj fs)
/-- Elementwise `preprocessDates` on arrays. -/
def preprocessDatesArr : JArr → JArr
  | .nil => .nil
  | .cons x xs => .cons (preprocessDates x) (preprocessDatesArr xs)
/-- Entry-wise `preprocessDates` on objects (keys preserved in order). -/
def preprocessDatesObj : JObj → JObj
  | .nil => .nil
  | .cons k v fs => .cons k (preprocessDates v) (preprocessDatesObj fs)
end

/-- Option defaults of `semanticStrategy` (src/strategies.ts lines
67-76). -/
def semanticDefaults : NormalizationOptions where
  normalizeDates := some true
  sortKeys := some true
  excludeNulls := some true
  excludeEmptyStrings := some true
  trimStrings := some true
  caseSensitive := some false
  precision := some 2

/-- Model of `semanticStrategy` (src/strategies.ts line 66) up to the
hashed string: the date pre-pass runs over the whole payload, then the
result is normalized (semantic defaults, caller options override) and
canonicalized.  The advisory warning computation of the source does not
influence the fingerprint and is not modelled. -/
def semanticStrategyString (payload : JValue) (config : IdempotencyConfig) : String :=
  createDeterministicString (preprocessDates payload)
    (mergeOptions semanticDefaults config.options)

/-! ## Hashing configuration (src/hashing.ts lines 28-107)

The cryptographic primitives are the external collaborator: `digest alg
key data` abstracts `createHash(alg)`/`createHmac(alg, key)` over `data`
(`key` is empty for the unkeyed algorithms), and `generatedKey` abstracts
the random key produced by `generateSecretKey()`. -/

/-- Model of the `HashingConfig` interface. -/
structure HashingConfig where
  algorithm : Option String := none
  secretKey : Option String := none
  keyId : Option String := none
  generateKey : Option Bool := none

/-- Result record of `createHashWithConfig`. -/
structure HashResult where
  hash : String
  keyId : String
  algorithm : String

/-- Model of `createHashWithConfig` (src/hashing.ts line 45): merge the
defaults, generate a key when requested and none is present, then
dispatch on the algorithm; HMAC algorithms throw without a (non-empty)
secret key, unrecognized algorithms throw `Unsupported hashing
algorithm`. -/
def createHashWithConfig (digest : String → String → String → String)
    (generatedKey : String) (data : String) (config : HashingConfig) :
    Except String HashResult :=
  let algorithm := config.algorithm.getD "sha256"
  let secretKey0 := config.secretKey.getD ""
  let keyId := config.keyId.getD "default"
  let genKey := config.generateKey.getD false
  let secretKey := if genKey && secretKey0 == "" then generatedKey else secretKey0
  if algorithm == "sha256" then
    .ok { hash := digest "sha256" "" data, keyId := keyId, algorithm := "sha256" }
  else if algorithm == "sha512" then
    .ok { hash := digest "sha512" "" data, keyId := keyId, algorithm := "sha512" }
  else if algorithm == "hmac-sha256" then
    if secretKey == "" then .error "Secret key is required for HMAC-SHA256"
    else .ok { hash := digest "hmac-sha256" secretKey data, keyId := keyId,
               algorithm := "hmac-sha256" }
  else if algorithm == "hmac-sha512" then
    if secretKey == "" then .error "Secret key is required for HMAC-SHA512"
    else .ok { hash := digest "hmac-sha512" secretKey data, keyId := keyId,
               algorithm := "hmac-sha512" }
  else .error ("Unsupported hashing algorithm: " ++ algorithm)

/-- Model of `validateHash` (src/hashing.ts line 100): the `try` block
recomputes the hash and compares; the `catch` block swallows any raised
error into the boolean `false`.  An `Except.error` result would model an
uncaught exception; the definition produces `Except.ok` in both
branches. -/
def validateHash (digest : String → String → String → String)
    (generatedKey : String) (data expectedHash : String) (config : HashingConfig) :
    Except String Bool :=
  match createHashWithConfig digest generatedKey data config with
  | .ok result => .ok (result.hash == expectedHash)
  | .error _ => .ok false

/-! ## Reference-aware normalizer (cycle handling of src/normalizers.ts)

The `seen` WeakSet of `normalizeValue` holds object references and is keyed
by identity, so its behaviour is only visible on values with shared or
cyclic references.  This model makes references explicit: a heap maps
addresses to array or object nodes, and immediate values (`HVal`) either
carry a primitive or point into the heap.  The single mutated WeakSet is
modelled by threading the visited-address list through the traversal in
evaluation order.  Recursion is fueled (any fuel larger than the depth of
the traversal gives the source behaviour; the source itself diverges on
cyclic arrays, which are never added to the set — the `Array.isArray`
branch precedes the cycle check). -/

/-- Immediate value of the reference-aware model. -/
inductive HVal where
  | null
  | undef
  | bool (b : Bool)
  | num (n : JNum)
  | str (s : String)
  | date (ms : Int)
  | ref (addr : Nat)

/-- Heap node: an array of immediates or an object of immediates. -/
inductive HObj where
  | harr (elems : List HVal)
  | hobj (fields : List (String × HVal))

/-- Address lookup in a heap. -/
def heapFind : List (Nat × HObj) → Nat → Option HObj
  | [], _ => none
  | (a, o) :: rest, addr => if a == addr then some o else heapFind rest addr

/-- Model of `normalizeValue` (src/normalizers.ts line 7) over the
reference-aware value model, returning the normalized tree together with
the final visited set.  Mirrors the source case by case; the `.ref` case
performs the heap dereference: arrays are mapped and filtered with no
cycle check (the source checks `Array.isArray` before consulting `seen`),
objects first consult `seen` — returning the `"[Circular]"` marker on a
revisit — and otherwise add their address before iterating their
(optionally sorted) keys.  The visited set is threaded left to right and
never shrinks, modelling the single mutated WeakSet. -/
def normalizeValueH : Nat → List (Nat × HObj) → NormalizationOptions →
    HVal → List Nat → JValue × List Nat
  | 0, _, _, _, seen => (.str "[DepthExhausted]", seen)
  | fuel + 1, h, opts, v, seen =>
    match v with
    | .null => ((if optTruthy opts.excludeNulls then .undef else .null), seen)
    | .undef => ((if optTruthy opts.excludeNulls then .undef else .undef), seen)
    | .bool b => (.bool b, seen)
    | .str s =>
      if optTruthy opts.excludeEmptyStrings && s == "" then (.undef, seen)
      else
        let s1 := if optTruthy opts.trimStrings then strTrim s else s
        let s2 := if !optTruthy opts.caseSensitive then strToLower s1 else s1
        (.str s2, seen)
    | .num n =>
      match opts.precision with
      | some p => (.num (roundToPrecision n p), seen)
      | none => (.num n, seen)
    | .date ms =>
      ((if optTruthy opts.normalizeDates then .str (toISOString ms) else .date ms), seen)
    | .ref a =>
      match heapFind h a with
      | some (.harr es) =>
        let step := es.foldl
          (fun (acc : List JValue × List Nat) e =>
            let r := normalizeValueH fuel h opts e acc.2
            (acc.1 ++ [r.1], r.2))
          ([], seen)
        (.arr (JArr.ofList (step.1.filter (fun j => !j.isUndef))), step.2)
      | some (.hobj fs) =>
        if seen.contains a then (.str "[Circular]", seen)
        else
          let ordered := if optTruthy opts.sortKeys then sortByKey fs else fs
          let step := ordered.foldl
            (fun (acc : JObj × List Nat) kv =>
              let nk := if optTruthy opts.caseSensitive then kv.1 else strToLower kv.1
              let r := normalizeValueH fuel h opts kv.2 acc.2
              ((if r.1.isUndef then acc.1 else insertObj acc.1 nk r.1), r.2))
            (.nil, a :: seen)
          (.obj step.1, step.2)
      | none => (.undef, seen)

/-! ## Order lemmas for the key sort -/

theorem charToNat_inj {c1 c2 : Char} (h : c1.toNat = c2.toNat) : c1 = c2 := by
  cases c1 with
  | mk v1 h1 =>
    cases c2 with
    | mk v2 h2 =>
      simp only [Char.toNat] at h
      congr 1
      exact UInt32.ext h

theorem charListLe_total : ∀ a b, charListLe a b = true ∨ charListLe b a = true
  | [], _ => Or.inl rfl
  | _ :: _, [] => Or.inr rfl
  | a :: as, b :: bs => by
    rcases Nat.lt_trichotomy a.toNat b.toNat with h | h | h
    · exact Or.inl (by simp [charListLe, h])
    · have := charListLe_total as bs
      simp [charListLe, h, Nat.lt_irrefl]
      simpa using this
    · exact Or.inr (by simp [charListLe, h])

theorem charListLe_trans : ∀ a b c, charListLe a b = true → charListLe b c = true →
    charListLe a c = true
  | [], _, _ => by simp [charListLe]
  | _ :: _, [], _ => by simp [charListLe]
  | _ :: _, _ :: _, [] => by simp [charListLe]
  | a :: as, b :: bs, c :: cs => by
    intro h1 h2
    by_cases hab : a.toNat < b.toNat
    · by_cases hbc : b.toNat < c.toNat
      · simp [charListLe, show a.toNat < c.toNat by omega]
      · by_cases hcb : c.toNat < b.toNat
        · simp [charListLe, hbc, hcb] at h2
        · have : b.toNat = c.toNat := by omega
          simp [charListLe, show a.toNat < c.toNat by omega]
    · by_cases hba : b.toNat < a.toNat
      · simp [charListLe, hab, hba] at h1
      · have hab2 : a.toNat = b.toNat := by omega
        by_cases hbc : b.toNat < c.toNat
        · simp [charListLe, show a.toNat < c.toNat by omega]
        · by_cases hcb : c.toNat < b.toNat
          · simp [charListLe, hbc, hcb] at h2
          · have hbc2 : b.toNat = c.toNat := by omega
            simp only [charListLe, hab, hba, if_false] at h1
            simp only [charListLe, hbc, hcb, if_false] at h2
            simp only [charListLe, show ¬ a.toNat < c.toNat by omega,
              show ¬ c.toNat < a.toNat by omega, if_false]
            exact charListLe_trans as bs cs h1 h2

theorem charListLe_antisymm : ∀ a b, charListLe a b = true → charListLe b a = true → a = b
  | [], [] => by intros; rfl
  | [], _ :: _ => by simp [charListLe]
  | _ :: _, [] => by simp [charListLe]
  | a :: as, b :: bs => by
    intro h1 h2
    rcases Nat.lt_trichotomy a.toNat b.toNat with hab | hab | hab
    · simp [charListLe, hab, Nat.lt_irrefl, Nat.lt_asymm hab] at h2
    · have ha : a = b := charToNat_inj hab
      subst ha
      simp only [charListLe, Nat.lt_irrefl, if_false] at h1 h2
      rw [charListLe_antisymm as bs h1 h2]
    · simp [charListLe, hab, Nat.lt_irrefl, Nat.lt_asymm hab] at h1

theorem strLe_total (a b : String) : strLe a b = true ∨ strLe b a = true :=
  charListLe_total a.data b.data

theorem strLe_trans {a b c : String} (h1 : strLe a b = true) (h2 : strLe b c = true) :
    strLe a c = true :=
  charListLe_trans a.data b.data c.data h1 h2

theorem strLe_antisymm {a b : String} (h1 : strLe a b = true) (h2 : strLe b a = true) :
    a = b := by
  have := charListLe_antisymm a.data b.data h1 h2
  exact congrArg String.mk this

/-- Key order on association-list entries (the comparison the key sort
uses). -/
def keyLe {β : Type} (a b : String × β) : Prop := strLe a.1 b.1 = true

theorem insertByKey_perm {β : Type} (p : String × β) :
    ∀ l : List (String × β), (insertByKey p l).Perm (p :: l)
  | [] => List.Perm.refl _
  | q :: rest => by
    by_cases h : strLe q.1 p.1 = true
    · simp only [insertByKey, h, if_true]
      exact ((insertByKey_perm p rest).cons q).trans (List.Perm.swap p q rest)
    · simp only [insertByKey, h, if_false]
      exact List.Perm.refl _

theorem sortByKey_perm {β : Type} : ∀ l : List (String × β), (sortByKey l).Perm l
  | [] => List.Perm.refl _
  | p :: rest =>
    (insertByKey_perm p (sortByKey rest)).trans ((sortByKey_perm rest).cons p)

theorem mem_insertByKey {β : Type} {p x : String × β} {l : List (String × β)}
    (h : x ∈ insertByKey p l) : x = p ∨ x ∈ l := by
  have := (insertByKey_perm p l).mem_iff.mp h
  simpa using this

theorem insertByKey_sorted {β : Type} (p : String × β) :
    ∀ l : List (String × β), l.Pairwise keyLe → (insertByKey p l).Pairwise keyLe
  | [], _ => by simp [insertByKey, List.Pairwise]
  | q :: rest, hs => by
    rcases List.pairwise_cons.mp hs with ⟨hq, hrest⟩
    by_cases h : strLe q.1 p.1 = true
    · simp only [insertByKey, h, if_true]
      refine List.pairwise_cons.mpr ⟨?_, insertByKey_sorted p rest hrest⟩
      intro x hx
      rcases mem_insertByKey hx with rfl | hx
      · exact h
      · exact hq x hx
    · simp only [insertByKey, h, if_false]
      have hpq : keyLe p q := by
        rcases strLe_total p.1 q.1 with ht | ht
        · exact ht
        · exact absurd ht h
      refine List.pairwise_cons.mpr ⟨?_, hs⟩
      intro x hx
      rcases List.mem_cons.mp hx with rfl | hx
      · exact hpq
      · exact strLe_trans hpq (hq x hx)

theorem sortByKey_sorted {β : Type} : ∀ l : List (String × β), (sortByKey l).Pairwise keyLe
  | [] => by simp [sortByKey]
  | p :: rest => insertByKey_sorted p (sortByKey rest) (sortByKey_sorted rest)

theorem sorted_nodup_eq {β : Type} {l1 l2 : List (String × β)} (hp : l1.Perm l2)
    (s1 : l1.Pairwise keyLe) (s2 : l2.Pairwise keyLe)
    (nd : (l1.map Prod.fst).Nodup) : l1 = l2 := by
  have nd2 : (l2.map Prod.fst).Nodup := ((hp.map Prod.fst).nodup_iff).mp nd
  have strict : ∀ (l : List (String × β)), l.Pairwise keyLe → (l.map Prod.fst).Nodup →
      l.Pairwise (fun a b => strLe b.1 a.1 = false) := by
    intro l hs hn
    have hne : l.Pairwise (fun a b : String × β => a.1 ≠ b.1) :=
      (List.pairwise_map).mp hn
    refine (hs.and hne).imp ?_
    rintro a b ⟨hle, hneq⟩
    cases h : strLe b.1 a.1
    · rfl
    · exact absurd (strLe_antisymm hle h) hneq
  haveI : IsAntisymm (String × β) (fun a b => strLe b.1 a.1 = false) := by
    constructor
    intro a b h1 h2
    rcases strLe_total a.1 b.1 with ht | ht
    · rcases strLe_total b.1 a.1 with ht2 | ht2
      · simp [ht2] at h1
      · simp [ht] at h2
    · simp [ht] at h1
  exact List.eq_of_perm_of_sorted hp (strict l1 s1 nd) (strict l2 s2 nd2)

theorem sortByKey_eq_self {β : Type} {l : List (String × β)}
    (s : l.Pairwise keyLe) (nd : (l.map Prod.fst).Nodup) : sortByKey l = l :=
  sorted_nodup_eq (sortByKey_perm l) (sortByKey_sorted l) s
    (((sortByKey_perm l).map Prod.fst).nodup_iff.mpr nd)

/-! ## Claim C1: determinism and key-sortedness of the canonicalizer -/

/-- Presence of a key in an object. -/
def hasKeyObj : JObj → String → Bool
  | .nil, _ => false
  | .cons k _ fs, key => k == key || hasKeyObj fs key

/-- Uniqueness of the keys of one object node (JS objects cannot carry
duplicate keys, so every value reachable at runtime satisfies this). -/
def nodupKeysObj : JObj → Bool
  | .nil => true
  | .cons k _ fs => !hasKeyObj fs k && nodupKeysObj fs

mutual
/-- Well-formedness of a value: every object node has unique keys (always
true of actual JS runtime values). -/
def wfKeys : JValue → Bool
  | .arr xs => wfKeysArr xs
  | .obj fs => nodupKeysObj fs && wfKeysVals fs
  | _ => true
/-- Well-formedness of every element of an array. -/
def wfKeysArr : JArr → Bool
  | .nil => true
  | .cons x xs => wfKeys x && wfKeysArr xs
/-- Well-formedness of every field value of an object. -/
def wfKeysVals : JObj → Bool
  | .nil => true
  | .cons _ v fs => wfKeys v && wfKeysVals fs
end

mutual
/-- Structural equality of JS values up to object key insertion order: two
values are equivalent when they agree on every leaf, arrays agree
positionally, and objects carry permuted field lists with equivalent
values under equal keys. -/
inductive JEquiv : JValue → JValue → Prop where
  | null : JEquiv .null .null
  | undef : JEquiv .undef .undef
  | bool (b : Bool) : JEquiv (.bool b) (.bool b)
  | num (n : JNum) : JEquiv (.num n) (.num n)
  | str (s : String) : JEquiv (.str s) (.str s)
  | date (ms : Int) : JEquiv (.date ms) (.date ms)
  | arr {xs ys : JArr} : AEquiv xs ys → JEquiv (.arr xs) (.arr ys)
  | obj {fs : JObj} {l : List (String × JValue)} {gs : JObj} :
      OEquiv fs l → l.Perm gs.toList → JEquiv (.obj fs) (.obj gs)
/-- Positional equivalence of arrays. -/
inductive AEquiv : JArr → JArr → Prop where
  | nil : AEquiv .nil .nil
  | cons {x y : JValue} {xs ys : JArr} :
      JEquiv x y → AEquiv xs ys → AEquiv (.cons x xs) (.cons y ys)
/-- Entry-wise equivalence of an object with an association list: equal
keys in the same order, equivalent values. -/
inductive OEquiv : JObj → List (String × JValue) → Prop where
  | nil : OEquiv .nil []
  | cons {k : String} {v w : JValue} {fs : JObj} {l : List (String × JValue)} :
      JEquiv v w → OEquiv fs l → OEquiv (.cons k v fs) ((k, w) :: l)
end

theorem hasKeyObj_iff : ∀ (fs : JObj) (k : String),
    hasKeyObj fs k = true ↔ k ∈ fs.toList.map Prod.fst
  | .nil, k => by simp [hasKeyObj, JObj.toList]
  | .cons k2 v fs, k => by
    simp [hasKeyObj, JObj.toList, hasKeyObj_iff fs k, Bool.or_eq_true, beq_iff_eq]
    constructor
    · rintro (rfl | h)
      · exact Or.inl rfl
      · exact Or.inr h
    · rintro (rfl | h)
      · exact Or.inl rfl
      · exact Or.inr h

theorem nodupKeysObj_iff : ∀ (fs : JObj),
    nodupKeysObj fs = true ↔ (fs.toList.map Prod.fst).Nodup
  | .nil => by simp [nodupKeysObj, JObj.toList]
  | .cons k v fs => by
    rw [nodupKeysObj, JObj.toList]
    simp only [List.map_cons, List.nodup_cons, Bool.and_eq_true, Bool.not_eq_true']
    rw [nodupKeysObj_iff fs]
    constructor
    · rintro ⟨h1, h2⟩
      refine ⟨fun hm => ?_, h2⟩
      have := (hasKeyObj_iff fs k).mpr hm
      rw [h1] at this
      exact Bool.noConfusion this
    · rintro ⟨h1, h2⟩
      refine ⟨?_, h2⟩
      cases hh : hasKeyObj fs k
      · rfl
      · exact absurd ((hasKeyObj_iff fs k).mp hh) h1

theorem canonObjPairs_toList : ∀ (fs : JObj),
    canonObjPairs fs = fs.toList.map (fun p => (p.1, canonChars p.2))
  | .nil => rfl
  | .cons k v fs => by simp [canonObjPairs, JObj.toList, canonObjPairs_toList fs]

theorem canonArr_toList : ∀ (xs : JArr), canonArr xs = xs.toList.map canonChars
  | .nil => rfl
  | .cons x xs => by simp [canonArr, JArr.toList, canonArr_toList xs]

mutual
/-- Equivalent well-formed values canonicalize to the same characters. -/
theorem canonEq : ∀ {v w : JValue}, JEquiv v w → wfKeys v = true →
    canonChars v = canonChars w
  | _, _, .null, _ => rfl
  | _, _, .undef, _ => rfl
  | _, _, .bool _, _ => rfl
  | _, _, .num _, _ => rfl
  | _, _, .str _, _ => rfl
  | _, _, .date _, _ => rfl
  | _, _, @JEquiv.arr xs ys h, hwf => by
    have := canonEqArr h (by simpa [wfKeys] using hwf)
    simp [canonChars, this]
  | _, _, @JEquiv.obj fs l gs h hperm, hwf => by
    have hwf2 : nodupKeysObj fs = true ∧ wfKeysVals fs = true := by
      simpa [wfKeys, Bool.and_eq_true] using hwf
    have hl := canonEqObjL h hwf2.2
    have hkeys : fs.toList.map Prod.fst = l.map Prod.fst := hl.2
    have hnd : ((canonObjPairs fs).map Prod.fst).Nodup := by
      rw [canonObjPairs_toList, List.map_map]
      have : (Prod.fst ∘ fun p : String × JValue => (p.1, canonChars p.2)) = Prod.fst := rfl
      rw [this]
      exact (nodupKeysObj_iff fs).mp hwf2.1
    have hperm2 : (canonObjPairs fs).Perm (canonObjPairs gs) := by
      rw [hl.1, canonObjPairs_toList]
      exact hperm.map _
    have : sortByKey (canonObjPairs fs) = sortByKey (canonObjPairs gs) := by
      refine sorted_nodup_eq ?_ (sortByKey_sorted _) (sortByKey_sorted _) ?_
      · exact (sortByKey_perm _).trans (hperm2.trans (sortByKey_perm _).symm)
      · exact (((sortByKey_perm (canonObjPairs fs)).map Prod.fst).nodup_iff).mpr hnd
    simp [canonChars, this]
/-- Pointwise-equivalent well-formed arrays serialize elementwise
equally. -/
theorem canonEqArr : ∀ {xs ys : JArr}, AEquiv xs ys → wfKeysArr xs = true →
    canonArr xs = canonArr ys
  | _, _, .nil, _ => rfl
  | _, _, @AEquiv.cons x y xs ys h hs, hwf => by
    have hwf2 : wfKeys x = true ∧ wfKeysArr xs = true := by
      simpa [wfKeysArr, Bool.and_eq_true] using hwf
    simp [canonArr, canonEq h hwf2.1, canonEqArr hs hwf2.2]
/-- Entry-wise equivalent well-formed object fields serialize pairwise
equally (and carry the same keys). -/
theorem canonEqObjL : ∀ {fs : JObj} {l : List (String × JValue)}, OEquiv fs l →
    wfKeysVals fs = true →
    canonObjPairs fs = l.map (fun p => (p.1, canonChars p.2)) ∧
      fs.toList.map Prod.fst = l.map Prod.fst
  | _, _, .nil, _ => ⟨rfl, rfl⟩
  | _, _, @OEquiv.cons k v w fs l h hs, hwf => by
    have hwf2 : wfKeys v = true ∧ wfKeysVals fs = true := by
      simpa [wfKeysVals, Bool.and_eq_true] using hwf
    have ih := canonEqObjL hs hwf2.2
    constructor
    · simp [canonObjPairs, canonEq h hwf2.1, ih.1]
    · simp [JObj.toList, ih.2]
end

/-- C1: for every JSON value, canonicalization is deterministic and
insertion-order independent — structurally equal well-formed values built
with different key insertion orders (`JEquiv`) canonicalize to the
identical string — and the member sequence of every object is emitted in
sorted key order (code-point lexicographic), not insertion order. -/
theorem canonicalize_deterministic_and_sorted :
    (∀ v w : JValue, JEquiv v w → wfKeys v = true → canonicalize v = canonicalize w) ∧
    (∀ fs : JObj, canonChars (.obj fs) =
      '\x7b' :: commaJoin (emitPairs (sortByKey (canonObjPairs fs))) ++ ['\x7d']) ∧
    (∀ fs : JObj, (sortByKey (canonObjPairs fs)).Pairwise keyLe) := by
  refine ⟨?_, ?_, ?_⟩
  · intro v w h hwf
    exact congrArg String.mk (canonEq h hwf)
  · intro fs
    rfl
  · intro fs
    exact sortByKey_sorted _

/-- Witness for C1 at the spec example: `{a:1,b:2}` and `{b:2,a:1}`
canonicalize identically, to `{"a":1,"b":2}`. -/
theorem canonicalize_deterministic_and_sorted_witness :
    canonicalize (.obj (.cons "a" (.num (.int 1)) (.cons "b" (.num (.int 2)) .nil))) =
      canonicalize (.obj (.cons "b" (.num (.int 2)) (.cons "a" (.num (.int 1)) .nil))) ∧
    canonicalize (.obj (.cons "a" (.num (.int 1)) (.cons "b" (.num (.int 2)) .nil))) =
      "\x7b\"a\":1,\"b\":2\x7d" := by
  constructor
  · exact canonicalize_deterministic_and_sorted.1 _ _
      (JEquiv.obj
        (OEquiv.cons (JEquiv.num _) (OEquiv.cons (JEquiv.num _) OEquiv.nil))
        (List.Perm.swap _ _ _))
      (by decide)
  · decide

/-! ## Claim C7: semantic date equivalence -/

/-- C7: under the semantic strategy, a payload holding the date object for
2023-06-15T10:30:00Z (epoch milliseconds 1686825000000) and a payload
holding the string "2023-06-15T10:30:00.000Z" at the same field feed the
identical canonical string to the hash, so their fingerprints (the digest
of that string) are equal. -/
theorem semantic_date_equivalence :
    semanticStrategyString (.obj (.cons "date" (.date 1686825000000) .nil)) {} =
      semanticStrategyString (.obj (.cons "date" (.str "2023-06-15T10:30:00.000Z") .nil)) {} :=
  rfl

/-! ## Claim C8: digest verification never throws -/

/-- C8: for every digest collaborator, generated key, data string, expected
hash and hashing configuration, `validateHash` returns a boolean — it never
propagates an error — and whenever the underlying `createHashWithConfig`
fails (for example an HMAC algorithm without a secret key), the boolean is
`false`. -/
theorem validateHash_never_throws :
    ∀ (digest : String → String → String → String) (generatedKey data expectedHash : String)
      (config : HashingConfig),
      (∃ b : Bool, validateHash digest generatedKey data expectedHash config = .ok b) ∧
      ((createHashWithConfig digest generatedKey data config).isOk = false →
        validateHash digest generatedKey data expectedHash config = .ok false) := by
  intro digest gk data exp cfg
  constructor
  · unfold validateHash
    cases createHashWithConfig digest gk data cfg with
    | ok r => exact ⟨r.hash == exp, rfl⟩
    | error e => exact ⟨false, rfl⟩
  · intro h
    unfold validateHash
    cases hc : createHashWithConfig digest gk data cfg with
    | ok r => rw [hc] at h; simp [Except.isOk, Except.toBool] at h
    | error e => rfl

/-- Witness for C8: an HMAC-SHA256 request without a secret key makes the
hash computation fail, and `validateHash` returns `false` instead of
propagating. -/
theorem validateHash_never_throws_witness :
    validateHash (fun _ _ _ => "") "" "data" "expected"
      { algorithm := some "hmac-sha256" } = .ok false :=
  (validateHash_never_throws (fun _ _ _ => "") "" "data" "expected"
    { algorithm := some "hmac-sha256" }).2 rfl

/-! ## Claim C3: scope of the cycle protection -/

/-- Counterexample for C3: a non-cyclic container shared by two sibling
positions (a DAG).  Address 0 holds `{x:1}`; address 1 holds
`{p: ref 0, q: ref 0}`.  The claim says both occurrences normalize fully;
the code replaces the second occurrence by the `"[Circular]"` marker,
because the visited set is never cleared on return from the first
branch. -/
theorem normalize_dag_second_occurrence_circular :
    (normalizeValueH 5
      [(0, .hobj [("x", .num (.int 1))]), (1, .hobj [("p", .ref 0), ("q", .ref 0)])]
      {} (.ref 1) []).1 =
      .obj (.cons "p" (.obj (.cons "x" (.num (.int 1)) .nil))
        (.cons "q" (.str "[Circular]") .nil)) := rfl

/-- Threading lemma for the traversal loops of `normalizeValueH`: a fold
whose step only ever grows the visited-set component keeps the initial
set inside the final one. -/
theorem foldl_seen_mono {α σ : Type} (step : (σ × List Nat) → α → (σ × List Nat))
    (hstep : ∀ acc e, acc.2 ⊆ (step acc e).2) :
    ∀ (es : List α) (acc : σ × List Nat), acc.2 ⊆ (es.foldl step acc).2 := by
  intro es
  induction es with
  | nil => intro acc; exact List.Subset.refl _
  | cons e es ihes =>
    intro acc
    simp only [List.foldl_cons]
    exact (hstep acc e).trans (ihes _)

/-- The visited set of `normalizeValueH` only grows along the traversal. -/
theorem normalizeValueH_seen_mono :
    ∀ (fuel : Nat) (h : List (Nat × HObj)) (opts : NormalizationOptions)
      (v : HVal) (seen : List Nat), seen ⊆ (normalizeValueH fuel h opts v seen).2 := by
  intro fuel
  induction fuel with
  | zero =>
    intro h opts v seen
    exact List.Subset.refl _
  | succ fuel ih =>
    intro h opts v seen
    cases v with
    | null => simp only [normalizeValueH]; exact List.Subset.refl _
    | undef => simp only [normalizeValueH]; exact List.Subset.refl _
    | bool b => exact List.Subset.refl _
    | str s =>
      simp only [normalizeValueH]
      split
      · exact List.Subset.refl _
      · exact List.Subset.refl _
    | num n =>
      simp only [normalizeValueH]
      split
      · exact List.Subset.refl _
      · exact List.Subset.refl _
    | date ms => simp only [normalizeValueH]; exact List.Subset.refl _
    | ref a =>
      simp only [normalizeValueH]
      cases hfind : heapFind h a with
      | none => exact List.Subset.refl _
      | some o =>
        cases o with
        | harr es =>
          exact @foldl_seen_mono HVal (List JValue) _
            (fun acc e => ih h opts e acc.2) es ([], seen)
        | hobj fs =>
          cases hc : List.contains seen a with
          | true =>
            simp only [hc, if_true]
            exact List.Subset.refl _
          | false =>
            simp only [hc, Bool.false_eq_true, if_false]
            refine List.Subset.trans ?_
              (@foldl_seen_mono (String × HVal) JObj _
                (fun acc kv => ih h opts kv.2 acc.2)
                (if optTruthy opts.sortKeys = true then sortByKey fs else fs)
                (JObj.nil, a :: seen))
            exact List.subset_cons_self a seen

/-- C3 (amended): the visited set of the normalizer is threaded through the
whole traversal and never cleared on return from a branch — it only grows
(first conjunct) — and an object container whose address is already in the
set is replaced by the `"[Circular]"` marker whenever it is revisited
anywhere later in the traversal, not only on the current descent path
(second conjunct).  Consequently a non-cyclic container shared by two
sibling positions is normalized fully at its first occurrence only (see
`normalize_dag_second_occurrence_circular`). -/
theorem normalizeValue_seen_scope :
    (∀ (fuel : Nat) (h : List (Nat × HObj)) (opts : NormalizationOptions) (v : HVal)
      (seen : List Nat), seen ⊆ (normalizeValueH fuel h opts v seen).2) ∧
    (∀ (fuel : Nat) (h : List (Nat × HObj)) (opts : NormalizationOptions) (a : Nat)
      (seen : List Nat) (fs : List (String × HVal)),
      heapFind h a = some (.hobj fs) → List.contains seen a = true →
      normalizeValueH (fuel + 1) h opts (.ref a) seen = (.str "[Circular]", seen)) := by
  refine ⟨normalizeValueH_seen_mono, ?_⟩
  intro fuel h opts a seen fs hfind hc
  simp only [normalizeValueH, hfind, hc, if_true]

/-- Witness for C3 (amended): revisiting address 0 with it already in the
visited set yields the `"[Circular]"` marker. -/
theorem normalizeValue_seen_scope_witness :
    normalizeValueH 1 [(0, .hobj [])] {} (.ref 0) [0] = (.str "[Circular]", [0]) :=
  normalizeValue_seen_scope.2 0 [(0, .hobj [])] {} 0 [0] [] rfl rfl

/-! ## Claim C4: path evaluation typing rules -/

/-- Counterexample for C4: against an object container, an integer segment
is not invalid — it is looked up under JS property-key coercion, so the
path `[0]` resolves on the object `{"0": 5}` instead of yielding Absent. -/
theorem getNestedValue_integer_segment_on_object :
    getNestedValue (.obj (.cons "0" (.num (.int 5)) .nil)) "[0]" = .num (.int 5) ∧
      JValue.num (.int 5) ≠ JValue.undef :=
  ⟨rfl, fun h => JValue.noConfusion h⟩

/-- C4 (amended): the typing rules of path evaluation.  A `null` or
`undefined` intermediate short-circuits to Absent; a non-container
intermediate (boolean, number, string, and also a `Date`, which has no own
properties) yields Absent; on an array container a string segment, a `NaN`
segment and an out-of-range index yield Absent; on an object container a
missing key yields Absent, while an integer segment is looked up as its
decimal string key (not rejected); and `getNestedValue` is the guarded
walk of the parsed path. -/
theorem getNestedValue_typing :
    (∀ (o : JValue) (p : String), getNestedValue o p =
      if p == "" || jsFalsy o then .undef else walkKeys (parsePath p) o) ∧
    (∀ (k : PathKey) (ks : List PathKey),
      walkKeys (k :: ks) .null = .undef ∧ walkKeys (k :: ks) .undef = .undef) ∧
    (∀ (k : PathKey) (ks : List PathKey) (b : Bool) (n : JNum) (s : String) (ms : Int),
      walkKeys (k :: ks) (.bool b) = .undef ∧ walkKeys (k :: ks) (.num n) = .undef ∧
      walkKeys (k :: ks) (.str s) = .undef ∧ walkKeys (k :: ks) (.date ms) = .undef) ∧
    (∀ (s : String) (ks : List PathKey) (xs : JArr),
      walkKeys (.str s :: ks) (.arr xs) = .undef ∧
      walkKeys (.num none :: ks) (.arr xs) = .undef) ∧
    (∀ (n : Int) (ks : List PathKey) (xs : JArr),
      ¬(0 ≤ n ∧ n < Int.ofNat (arrLen xs)) →
      walkKeys (.num (some n) :: ks) (.arr xs) = .undef) ∧
    (∀ (s : String) (ks : List PathKey) (fs : JObj), lookupObj fs s = none →
      walkKeys (.str s :: ks) (.obj fs) = .undef) ∧
    (∀ (n : Int) (ks : List PathKey) (fs : JObj),
      walkKeys (.num (some n) :: ks) (.obj fs) =
        match lookupObj fs (intStr n) with
        | some v => walkKeys ks v
        | none => .undef) := by
  refine ⟨fun o p => rfl, fun k ks => ⟨rfl, rfl⟩, fun k ks b n s ms => ⟨rfl, rfl, rfl, rfl⟩,
    fun s ks xs => ⟨rfl, rfl⟩, ?_, ?_, fun n ks fs => rfl⟩
  · intro n ks xs hb
    simp only [walkKeys, hb, if_false]
  · intro s ks fs hl
    simp only [walkKeys, keyPropString, hl]

/-- Witness for C4 (amended): a missing key and an out-of-range index both
yield Absent. -/
theorem getNestedValue_typing_witness :
    walkKeys [.num (some 3)] (.arr (.cons (.str "x") .nil)) = .undef ∧
      walkKeys [.str "missing"] (.obj (.cons "a" (.num (.int 1)) .nil)) = .undef :=
  ⟨getNestedValue_typing.2.2.2.2.1 3 [] (.cons (.str "x") .nil) (by decide),
   getNestedValue_typing.2.2.2.2.2.1 "missing" [] (.cons "a" (.num (.int 1)) .nil) rfl⟩

/-! ## Claim C5: behaviour of the `$date` transformation -/

/-- Counterexample for C5: resolving an unparseable string under `$date`
throws (`new Date("hello").toISOString()` raises `RangeError: Invalid time
value`) instead of returning the raw value unchanged. -/
theorem applyTransformation_date_throws_on_unparseable :
    applyTransformation (.obj (.cons "f" (.str "hello") .nil)) "f" (.date "f") =
      .error "Invalid time value" := rfl

/-- C5 (amended): the `$date` transformation returns the ISO-8601 UTC form
when the resolved value is a date-typed value or a string that parses as a
date; it returns the raw resolved value unchanged for every non-string,
non-date value; but for a string that does not parse as a date it throws a
`RangeError` (`Invalid time value`) rather than returning the string. -/
theorem applyTransformation_date_behaviour :
    ∀ (payload : JValue) (field path : String),
      (∀ ms : Int, getNestedValue payload path = .date ms →
        applyTransformation payload field (.date path) = .ok (.str (toISOString ms))) ∧
      (∀ (s : String) (ms : Int), getNestedValue payload path = .str s →
        parseDateJS s = some ms →
        applyTransformation payload field (.date path) = .ok (.str (toISOString ms))) ∧
      (∀ s : String, getNestedValue payload path = .str s → parseDateJS s = none →
        applyTransformation payload field (.date path) = .error "Invalid time value") ∧
      (∀ v : JValue, getNestedValue payload path = v → (∀ s, v ≠ .str s) →
        (∀ ms, v ≠ .date ms) →
        applyTransformation payload field (.date path) = .ok v) := by
  intro payload field path
  refine ⟨?_, ?_, ?_, ?_⟩
  · intro ms h
    simp only [applyTransformation, h]
  · intro s ms h hp
    simp only [applyTransformation, h, hp]
  · intro s h hp
    simp only [applyTransformation, h, hp]
  · intro v h hs hd
    cases v with
    | str s => exact absurd rfl (hs s)
    | date ms => exact absurd rfl (hd ms)
    | null => simp only [applyTransformation, h]
    | undef => simp only [applyTransformation, h]
    | bool b => simp only [applyTransformation, h]
    | num n => simp only [applyTransformation, h]
    | arr xs => simp only [applyTransformation, h]
    | obj fs => simp only [applyTransformation, h]

/-- Witness for C5 (amended): a parseable date string resolves to its ISO
form, and a numeric value passes through raw. -/
theorem applyTransformation_date_behaviour_witness :
    applyTransformation (.obj (.cons "f" (.str "2023-06-15T10:30:00Z") .nil)) "x"
      (.date "f") = .ok (.str "2023-06-15T10:30:00.000Z") ∧
    applyTransformation (.obj (.cons "g" (.num (.int 123)) .nil)) "x"
      (.date "g") = .ok (.num (.int 123)) :=
  ⟨(applyTransformation_date_behaviour
      (.obj (.cons "f" (.str "2023-06-15T10:30:00Z") .nil)) "x" "f").2.1
      "2023-06-15T10:30:00Z" 1686825000000 rfl rfl,
   (applyTransformation_date_behaviour
      (.obj (.cons "g" (.num (.int 123)) .nil)) "x" "g").2.2.2
      (.num (.int 123)) rfl (fun _ h => JValue.noConfusion h)
      (fun _ h => JValue.noConfusion h)⟩

/-! ## Claim C10: a stored `undefined` is indistinguishable from absence -/

/-- A walk that reaches a stored `undefined` member returns `undefined`,
exactly as for a missing member. -/
theorem walkKeys_of_storedAt_undef : ∀ (ks : List PathKey) (v : JValue),
    storedAt v ks = some .undef → walkKeys ks v = .undef
  | [], v => by
    intro h
    simp only [storedAt, Option.some_inj] at h
    simpa [walkKeys] using h
  | k :: ks, v => by
    intro h
    cases v with
    | arr xs =>
      cases k with
      | num optn =>
        cases optn with
        | some n =>
          by_cases hb : 0 ≤ n ∧ n < Int.ofNat (arrLen xs)
          · simp only [storedAt, hb, if_true] at h
            cases hget : arrGet xs n.toNat with
            | some v2 =>
              rw [hget] at h
              simp only [walkKeys, hb, if_true, hget, Option.getD_some]
              exact walkKeys_of_storedAt_undef ks v2 h
            | none => rw [hget] at h; exact Option.noConfusion h
          · simp only [storedAt, hb, if_false] at h
            exact Option.noConfusion h
        | none => exact Option.noConfusion h
      | str s => exact Option.noConfusion h
    | obj fs =>
      cases hl : lookupObj fs (keyPropString k) with
      | some v2 =>
        simp only [storedAt, hl] at h
        simp only [walkKeys, hl]
        exact walkKeys_of_storedAt_undef ks v2 h
      | none =>
        simp only [storedAt, hl] at h
        exact Option.noConfusion h
    | null => exact Option.noConfusion h
    | undef => exact Option.noConfusion h
    | bool b => exact Option.noConfusion h
    | num n => exact Option.noConfusion h
    | str s => exact Option.noConfusion h
    | date ms => exact Option.noConfusion h

/-- C10: at the public path interface a key holding `undefined` is
indistinguishable from an absent key: when the stored value at the parsed
path of a nonempty path expression is `undefined`, `getNestedValue`
returns `undefined`, `hasNestedValue` returns `false`, and
`getNestedValueEnhanced` proceeds to the literal dotted-key fallback
(`obj[path]`) although the nested path exists in the object. -/
theorem undef_indistinguishable_from_absent :
    ∀ (fs : JObj) (p : String), p ≠ "" →
      storedAt (.obj fs) (parsePath p) = some .undef →
      getNestedValue (.obj fs) p = .undef ∧
      hasNestedValue (.obj fs) p = false ∧
      (strContainsChar p '.' = true →
        getNestedValueEnhanced (.obj fs) p = propAccess (.obj fs) p) := by
  intro fs p hp hstored
  have hw := walkKeys_of_storedAt_undef _ _ hstored
  have hbeq : (p == "") = false := by
    cases h : p == "" with
    | true => exact absurd (by simpa using h) hp
    | false => rfl
  have h1 : getNestedValue (.obj fs) p = .undef := by
    simp [getNestedValue, hbeq, jsFalsy, hw]
  refine ⟨h1, ?_, ?_⟩
  · simp [hasNestedValue, h1, JValue.isUndef]
  · intro hdot
    simp [getNestedValueEnhanced, hbeq, jsFalsy, h1, JValue.isUndef, hdot]

/-- Witness for C10: in `{a: {b: undefined}, "a.b": 42}` the nested path
`a.b` stores `undefined`, so `hasNestedValue` denies it and the enhanced
accessor falls back to the literal dotted key, returning 42. -/
theorem undef_indistinguishable_from_absent_witness :
    getNestedValue
      (.obj (.cons "a" (.obj (.cons "b" .undef .nil))
        (.cons "a.b" (.num (.int 42)) .nil))) "a.b" = .undef ∧
    hasNestedValue
      (.obj (.cons "a" (.obj (.cons "b" .undef .nil))
        (.cons "a.b" (.num (.int 42)) .nil))) "a.b" = false ∧
    getNestedValueEnhanced
      (.obj (.cons "a" (.obj (.cons "b" .undef .nil))
        (.cons "a.b" (.num (.int 42)) .nil))) "a.b" = .num (.int 42) := by
  have h := undef_indistinguishable_from_absent
    (.cons "a" (.obj (.cons "b" .undef .nil)) (.cons "a.b" (.num (.int 42)) .nil))
    "a.b" (by decide) rfl
  exact ⟨h.1, h.2.1, (h.2.2 rfl).trans rfl⟩

/-! ## Claim C9: case-insensitive normalization lowercases keys and values
and merges colliding keys -/

/-- Two-entry run of the object-building loop with equal normalized keys:
the assignment of the later entry overwrites the earlier value (or is the
only assignment when the earlier value was dropped). -/
theorem buildNormObj_two (a1 a2 nk : String) (nv nv2 : JValue)
    (h2 : nv2.isUndef = false) :
    buildNormObj [(a1, nk, nv), (a2, nk, nv2)] .nil = .cons nk nv2 .nil := by
  cases hu : nv.isUndef with
  | false => simp [buildNormObj, hu, insertObj, h2]
  | true => simp [buildNormObj, hu, insertObj, h2]

/-- Key sort of a two-entry field list. -/
theorem sortByKey_two {β : Type} (p q : String × β) :
    sortByKey [p, q] = if strLe q.1 p.1 then [q, p] else [p, q] := by
  simp [sortByKey, insertByKey]

/-- C9 (part of the normalizer contract): when `caseSensitive` is falsy,
normalization lowercases string values (first conjunct, stated with the
other string switches off) and lowercases object keys; consequently an
object with two distinct keys that collide after lowercasing normalizes to
a single lower-cased key whose value is the normalized value of whichever
colliding key is iterated last — in sorted key order when `sortKeys` is
set, else in natural (insertion) order (second conjunct, provided that
last value survives normalization). -/
theorem caseInsensitive_lowercases_and_merges :
    (∀ (opts : NormalizationOptions) (s : String),
      optTruthy opts.caseSensitive = false → optTruthy opts.trimStrings = false →
      optTruthy opts.excludeEmptyStrings = false →
      normalizeValue opts (.str s) = .str (strToLower s)) ∧
    (∀ (opts : NormalizationOptions) (k1 k2 : String) (v1 v2 : JValue),
      optTruthy opts.caseSensitive = false → k1 ≠ k2 → strToLower k1 = strToLower k2 →
      (normalizeValue opts
        (if optTruthy opts.sortKeys then (if strLe k2 k1 then v1 else v2) else v2)).isUndef
        = false →
      normalizeValue opts (.obj (.cons k1 v1 (.cons k2 v2 .nil))) =
        .obj (.cons (strToLower k1)
          (normalizeValue opts
            (if optTruthy opts.sortKeys then (if strLe k2 k1 then v1 else v2) else v2))
          .nil)) := by
  constructor
  · intro opts s hcs htr hee
    simp [normalizeValue, hcs, htr, hee]
  · intro opts k1 k2 v1 v2 hcs hne hlow hdef
    simp only [normalizeValue, normObjFields, hcs, Bool.false_eq_true, if_false, ← hlow]
    cases hsk : optTruthy opts.sortKeys with
    | false =>
      simp only [hsk, Bool.false_eq_true, if_false] at hdef ⊢
      rw [buildNormObj_two _ _ _ _ _ hdef]
    | true =>
      simp only [hsk, if_true] at hdef ⊢
      rw [sortByKey_two]
      cases hle : strLe k2 k1 with
      | true =>
        simp only [hle, if_true] at hdef ⊢
        rw [buildNormObj_two _ _ _ _ _ hdef]
      | false =>
        simp only [hle, Bool.false_eq_true, if_false] at hdef ⊢
        rw [buildNormObj_two _ _ _ _ _ hdef]

/-- Witness for C9: `{Name: "A", name: "B"}` with default options
normalizes to the single merged key `name` holding the lower-cased value of
the later field. -/
theorem caseInsensitive_lowercases_and_merges_witness :
    normalizeValue {} (.obj (.cons "Name" (.str "A") (.cons "name" (.str "B") .nil))) =
      .obj (.cons "name" (.str "b") .nil) := by
  have h := caseInsensitive_lowercases_and_merges.2 {} "Name" "name" (.str "A") (.str "B")
    rfl (by decide) (by decide) rfl
  exact h

/-! ## Claim C2: selective-strategy independence -/

/-- The extraction loop depends only on the per-field resolved values. -/
theorem extractFieldsLoop_congr (p1 p2 : JValue)
    (tfs : List (String × FieldTransformation)) :
    ∀ (fields : List String) (acc : JObj),
      (∀ f ∈ fields, extractFieldValue p1 tfs f = extractFieldValue p2 tfs f) →
      extractFieldsLoop p1 tfs fields acc = extractFieldsLoop p2 tfs fields acc
  | [], acc, _ => rfl
  | f :: rest, acc, h => by
    simp only [extractFieldsLoop]
    rw [h f (List.mem_cons_self f rest)]
    cases extractFieldValue p2 tfs f with
    | error e => rfl
    | ok v =>
      simp only [Except.bind, Bind.bind]
      exact extractFieldsLoop_congr p1 p2 tfs rest (insertObj acc f v)
        (fun g hg => h g (List.mem_cons_of_mem f hg))

/-- Counterexample for C2: with the fields list `F = ["a"]`, changing the
field `a` from `"ABC"` to `"abc"` changes the payload at a field in `F`
but does not change the canonical string the selective strategy hashes
(the default `caseSensitive: false` lower-cases the value first), hence
not the fingerprint. -/
theorem selective_field_change_same_fingerprint :
    getNestedValue (.obj (.cons "a" (.str "ABC") .nil)) "a" ≠
      getNestedValue (.obj (.cons "a" (.str "abc") .nil)) "a" ∧
    selectiveStrategyString (.obj (.cons "a" (.str "ABC") .nil))
        { fields := some ["a"] } =
      selectiveStrategyString (.obj (.cons "a" (.str "abc") .nil))
        { fields := some ["a"] } := by
  constructor
  · intro h
    have h2 : "ABC" = "abc" := by injection h
    exact absurd h2 (by decide)
  · rfl

/-- C2 (amended): any change to the payload that leaves the resolved values
of the fields of `F` unchanged — in particular, changing any payload field
not in `F` — leaves the canonical string the selective strategy hashes, and
hence the selective fingerprint, unchanged.  Changing a field in `F` is
*not* guaranteed to change the fingerprint: a change the normalization
erases (for example a letter-case change under the default
`caseSensitive: false`) produces the identical fingerprint (see
`selective_field_change_same_fingerprint`). -/
theorem selective_independence :
    ∀ (p1 p2 : JValue) (config : IdempotencyConfig),
      (config.fields.getD []).isEmpty = false →
      (∀ f ∈ config.fields.getD [],
        extractFieldValue p1 config.transformations f =
          extractFieldValue p2 config.transformations f) →
      selectiveStrategyString p1 config = selectiveStrategyString p2 config := by
  intro p1 p2 cfg hne hag
  unfold selectiveStrategyString
  simp only [hne, Bool.false_eq_true, if_false]
  unfold extractFields
  simp only [hne, Bool.false_eq_true, if_false]
  rw [extractFieldsLoop_congr p1 p2 cfg.transformations (cfg.fields.getD []) .nil hag]

/-- Witness for C2 (amended): with `F = ["a"]`, changing the field `b`
leaves the selective canonical string (hence the fingerprint) unchanged. -/
theorem selective_independence_witness :
    selectiveStrategyString
        (.obj (.cons "a" (.num (.int 1)) (.cons "b" (.num (.int 2)) .nil)))
        { fields := some ["a"] } =
      selectiveStrategyString
        (.obj (.cons "a" (.num (.int 1)) (.cons "b" (.num (.int 99)) .nil)))
        { fields := some ["a"] } :=
  selective_independence
    (.obj (.cons "a" (.num (.int 1)) (.cons "b" (.num (.int 2)) .nil)))
    (.obj (.cons "a" (.num (.int 1)) (.cons "b" (.num (.int 99)) .nil)))
    { fields := some ["a"] } rfl
    (by intro f hf; simp at hf; subst hf; rfl)

/-! ## Claim C6: idempotence of the canonical form

The development below proves that the canonical serialization of every
well-formed value reparses (under the `JSON.parse` model) to a value with
the identical canonical serialization, so `isJCSCompliant ∘ canonicalize`
holds. -/

/-- Specification of the decimal digit list of a natural number (most
significant digit first; empty for zero). -/
def digitsOf (n : Nat) : List Char :=
  if h : n = 0 then [] else digitsOf (n / 10) ++ [Nat.digitChar (n % 10)]
decreasing_by exact Nat.div_lt_self (Nat.pos_of_ne_zero h) (by omega)

theorem natCharsAux_eq : ∀ (fuel n : Nat) (acc : List Char), n ≤ fuel →
    natCharsAux fuel n acc = digitsOf n ++ acc := by
  intro fuel
  induction fuel with
  | zero =>
    intro n acc h
    have : n = 0 := by omega
    subst this
    simp [natCharsAux, digitsOf]
  | succ fuel ih =>
    intro n acc h
    by_cases hn : n = 0
    · subst hn
      simp [natCharsAux, digitsOf]
    · rw [natCharsAux, if_neg hn, ih (n / 10) _ (by omega)]
      conv_rhs => rw [digitsOf]
      rw [dif_neg hn, List.append_assoc]
      rfl

theorem natChars_eq (n : Nat) : natChars n = if n = 0 then ['0'] else digitsOf n := by
  by_cases h : n = 0
  · simp [natChars, h]
  · simp only [natChars, h, if_false]
    simpa using natCharsAux_eq n n [] (Nat.le_refl n)

theorem digitChar_digit : ∀ d, d < 10 → isDigitChar (Nat.digitChar d) = true := by decide

theorem digitVal_digitChar : ∀ d, d < 10 → digitVal (Nat.digitChar d) = d := by decide

theorem digitsOf_digits (n : Nat) : ∀ c ∈ digitsOf n, isDigitChar c = true := by
  induction n using Nat.strong_induction_on with
  | _ n ih =>
    by_cases hn : n = 0
    · subst hn; simp [digitsOf]
    · rw [digitsOf, dif_neg hn]
      intro c hc
      rcases List.mem_append.mp hc with h | h
      · exact ih (n / 10) (Nat.div_lt_self (Nat.pos_of_ne_zero hn) (by omega)) c h
      · rcases List.mem_singleton.mp h with rfl
        exact digitChar_digit _ (Nat.mod_lt n (by omega))

theorem natChars_digits (n : Nat) : ∀ c ∈ natChars n, isDigitChar c = true := by
  rw [natChars_eq]
  by_cases h : n = 0
  · subst h
    intro c hc
    rw [if_pos rfl] at hc
    rcases List.mem_singleton.mp hc with rfl
    rfl
  · simp only [h, if_false]
    exact digitsOf_digits n

theorem natChars_ne_nil (n : Nat) : natChars n ≠ [] := by
  rw [natChars_eq]
  by_cases h : n = 0
  · simp [h]
  · simp only [h, if_false]
    rw [digitsOf, dif_neg h]
    simp

theorem digitsVal_append (a : Nat) (xs ys : List Char) :
    digitsVal a (xs ++ ys) = digitsVal (digitsVal a xs) ys := by
  induction xs generalizing a with
  | nil => rfl
  | cons x xs ih => exact ih (a * 10 + digitVal x)

theorem digitsVal_digitsOf (n : Nat) : ∀ a : Nat,
    digitsVal a (digitsOf n) = a * 10 ^ (digitsOf n).length + n := by
  induction n using Nat.strong_induction_on with
  | _ n ih =>
    intro a
    by_cases hn : n = 0
    · subst hn
      have h0 : digitsOf 0 = [] := by rw [digitsOf]; simp
      rw [h0]
      show a = a * 10 ^ (0 : Nat) + 0
      simp
    · rw [digitsOf, dif_neg hn, digitsVal_append,
        ih (n / 10) (Nat.div_lt_self (Nat.pos_of_ne_zero hn) (by omega)) a]
      have hstep : digitsVal (a * 10 ^ (digitsOf (n / 10)).length + n / 10)
          [Nat.digitChar (n % 10)] =
          (a * 10 ^ (digitsOf (n / 10)).length + n / 10) * 10 +
            digitVal (Nat.digitChar (n % 10)) := rfl
      rw [hstep, digitVal_digitChar _ (Nat.mod_lt n (by omega)), List.length_append,
        List.length_singleton, pow_succ]
      calc (a * 10 ^ (digitsOf (n / 10)).length + n / 10) * 10 + n % 10
          = a * (10 ^ (digitsOf (n / 10)).length * 10) + (n / 10 * 10 + n % 10) := by
            ring
        _ = a * (10 ^ (digitsOf (n / 10)).length * 10) + n := by
            congr 1
            omega

theorem digitsVal_natChars (n : Nat) : digitsVal 0 (natChars n) = n := by
  rw [natChars_eq]
  by_cases h : n = 0
  · subst h; decide
  · simp only [h, if_false]
    simpa using digitsVal_digitsOf n 0

/-- Head condition under which a digit run is parsed maximally: the
following input does not begin with a digit. -/
def headOkC : List Char → Prop
  | [] => True
  | c :: _ => isDigitChar c = false

theorem span_digits : ∀ (ds rest : List Char), (∀ c ∈ ds, isDigitChar c = true) →
    headOkC rest →
    (ds ++ rest).takeWhile isDigitChar = ds ∧ (ds ++ rest).dropWhile isDigitChar = rest
  | [], rest, _, hrest => by
    cases rest with
    | nil => exact ⟨rfl, rfl⟩
    | cons c cs =>
      have : isDigitChar c = false := hrest
      simp [List.takeWhile, List.dropWhile, this]
  | d :: ds, rest, hds, hrest => by
    have hd : isDigitChar d = true := hds d (List.mem_cons_self d ds)
    have ih := span_digits ds rest (fun c hc => hds c (List.mem_cons_of_mem d hc)) hrest
    simp [List.takeWhile, List.dropWhile, hd, ih.1, ih.2]

theorem digit_ne_minus {c : Char} (h : isDigitChar c = true) : c ≠ '-' := by
  intro he
  subst he
  exact Bool.noConfusion h

theorem parseNumberChars_neg (t : List Char) :
    parseNumberChars ('-' :: t) =
      (if (t.takeWhile isDigitChar).isEmpty then none
       else some (.num (.int (-(Int.ofNat (digitsVal 0 (t.takeWhile isDigitChar))))),
         t.dropWhile isDigitChar)) := rfl

theorem parseNumberChars_nonneg (c : Char) (t : List Char) (hc : c ≠ '-') :
    parseNumberChars (c :: t) =
      (if ((c :: t).takeWhile isDigitChar).isEmpty then none
       else some (.num (.int (Int.ofNat (digitsVal 0 ((c :: t).takeWhile isDigitChar)))),
         (c :: t).dropWhile isDigitChar)) := by
  unfold parseNumberChars
  simp only [if_neg hc]
  simp

theorem parseNumber_round (n : Int) (rest : List Char) (hrest : headOkC rest) :
    parseNumberChars (intChars n ++ rest) = some (.num (.int n), rest) := by
  have hspan := span_digits (natChars n.natAbs) rest (natChars_digits _) hrest
  have hne : (natChars n.natAbs).isEmpty = false := by
    cases h : natChars n.natAbs with
    | nil => exact absurd h (natChars_ne_nil _)
    | cons d ds => rfl
  by_cases hn : n < 0
  · rw [intChars, if_pos hn]
    rw [show ('-' :: natChars n.natAbs) ++ rest = '-' :: (natChars n.natAbs ++ rest)
      from rfl]
    rw [parseNumberChars_neg, hspan.1, hspan.2, hne]
    simp only [Bool.false_eq_true, if_false]
    rw [digitsVal_natChars]
    have hval : -(Int.ofNat n.natAbs) = n := by
      rw [Int.ofNat_eq_natCast]
      omega
    rw [hval]
  · obtain ⟨d, ds, hnc⟩ : ∃ d ds, natChars n.natAbs = d :: ds := by
      cases h : natChars n.natAbs with
      | nil => exact absurd h (natChars_ne_nil _)
      | cons d ds => exact ⟨d, ds, rfl⟩
    have hd : isDigitChar d = true := by
      have := natChars_digits n.natAbs d
      rw [hnc] at this
      exact this (List.mem_cons_self d ds)
    rw [intChars, if_neg hn, hnc]
    rw [show (d :: ds) ++ rest = d :: (ds ++ rest) from rfl]
    rw [parseNumberChars_nonneg d (ds ++ rest) (digit_ne_minus hd)]
    rw [show d :: (ds ++ rest) = (d :: ds) ++ rest from rfl]
    rw [← hnc, hspan.1, hspan.2, hne]
    simp only [Bool.false_eq_true, if_false]
    rw [digitsVal_natChars]
    have hval : Int.ofNat n.natAbs = n := by
      rw [Int.ofNat_eq_natCast]
      omega
    rw [hval]

theorem hexVal_hexChar : ∀ d, d < 16 → hexVal (hexChar d) = some d := by decide

theorem charOfCode_toNat (c : Char) (h : c.toNat < 0xd800) :
    charOfCode c.toNat = some c := by
  rw [charOfCode, if_pos (Or.inl h), Char.ofNat_toNat]

theorem parseStringBody_round : ∀ (cs rest : List Char),
    parseStringBody (escChars cs ++ '"' :: rest) = some (cs, rest)
  | [], rest => by
    rw [escChars, List.nil_append, parseStringBody.eq_def]
    simp
  | c :: cs, rest => by
    have ih := parseStringBody_round cs rest
    rw [escChars, List.append_assoc]
    by_cases h1 : c = '"'
    · subst h1
      rw [show escChar '"' = ['\\', '"'] from rfl]
      rw [show (['\\', '"'] : List Char) ++ (escChars cs ++ '"' :: rest) =
        '\\' :: '"' :: (escChars cs ++ '"' :: rest) from rfl]
      rw [parseStringBody.eq_def]
      simp [decodeEsc, ih]
    · by_cases h2 : c = '\\'
      · subst h2
        rw [show escChar '\\' = ['\\', '\\'] from rfl]
        rw [show (['\\', '\\'] : List Char) ++ (escChars cs ++ '"' :: rest) =
          '\\' :: '\\' :: (escChars cs ++ '"' :: rest) from rfl]
        rw [parseStringBody.eq_def]
        simp [decodeEsc, ih]
      · by_cases h3 : c = '\x08'
        · subst h3
          rw [show escChar '\x08' = ['\\', 'b'] from rfl]
          rw [show (['\\', 'b'] : List Char) ++ (escChars cs ++ '"' :: rest) =
            '\\' :: 'b' :: (escChars cs ++ '"' :: rest) from rfl]
          rw [parseStringBody.eq_def]
          simp [decodeEsc, ih]
        · by_cases h4 : c = '\x09'
          · subst h4
            rw [show escChar '\x09' = ['\\', 't'] from rfl]
            rw [show (['\\', 't'] : List Char) ++ (escChars cs ++ '"' :: rest) =
              '\\' :: 't' :: (escChars cs ++ '"' :: rest) from rfl]
            rw [parseStringBody.eq_def]
            simp [decodeEsc, ih]
          · by_cases h5 : c = '\x0a'
            · subst h5
              rw [show escChar '\x0a' = ['\\', 'n'] from rfl]
              rw [show (['\\', 'n'] : List Char) ++ (escChars cs ++ '"' :: rest) =
                '\\' :: 'n' :: (escChars cs ++ '"' :: rest) from rfl]
              rw [parseStringBody.eq_def]
              simp [decodeEsc, ih]
            · by_cases h6 : c = '\x0c'
              · subst h6
                rw [show escChar '\x0c' = ['\\', 'f'] from rfl]
                rw [show (['\\', 'f'] : List Char) ++ (escChars cs ++ '"' :: rest) =
                  '\\' :: 'f' :: (escChars cs ++ '"' :: rest) from rfl]
                rw [parseStringBody.eq_def]
                simp [decodeEsc, ih]
              · by_cases h7 : c = '\x0d'
                · subst h7
                  rw [show escChar '\x0d' = ['\\', 'r'] from rfl]
                  rw [show (['\\', 'r'] : List Char) ++ (escChars cs ++ '"' :: rest) =
                    '\\' :: 'r' :: (escChars cs ++ '"' :: rest) from rfl]
                  rw [parseStringBody.eq_def]
                  simp [decodeEsc, ih]
                · by_cases h8 : c.toNat < 32
                  · rw [escChar, if_neg h1, if_neg h2, if_neg h3, if_neg h4, if_neg h5,
                      if_neg h6, if_neg h7, if_pos h8]
                    rw [show (['\\', 'u', '0', '0', hexChar (c.toNat / 16),
                        hexChar (c.toNat % 16)] : List Char) ++
                        (escChars cs ++ '"' :: rest) =
                      '\\' :: 'u' :: '0' :: '0' :: hexChar (c.toNat / 16) ::
                        hexChar (c.toNat % 16) :: (escChars cs ++ '"' :: rest) from rfl]
                    rw [parseStringBody.eq_def]
                    simp [show hexVal '0' = some 0 from rfl,
                      hexVal_hexChar (c.toNat / 16) (by omega),
                      hexVal_hexChar (c.toNat % 16) (by omega), ih]
                    rw [show c.toNat / 16 * 16 + c.toNat % 16 = c.toNat from by omega,
                      charOfCode_toNat c (by omega)]
                    simp
                  · rw [escChar, if_neg h1, if_neg h2, if_neg h3, if_neg h4, if_neg h5,
                      if_neg h6, if_neg h7, if_neg h8]
                    rw [List.singleton_append, parseStringBody.eq_def]
                    simp [h1, h2, h8, ih]

theorem stripPrefixCs_append : ∀ (p r : List Char), stripPrefixCs p (p ++ r) = some r
  | [], r => rfl
  | c :: p, r => by simp [stripPrefixCs, stripPrefixCs_append p r]

theorem natChars_head (n : Nat) :
    ∃ d ds, natChars n = d :: ds ∧ isDigitChar d = true := by
  cases h : natChars n with
  | nil => exact absurd h (natChars_ne_nil n)
  | cons d ds =>
    refine ⟨d, ds, rfl, ?_⟩
    have := natChars_digits n d
    rw [h] at this
    exact this (List.mem_cons_self d ds)

/-- The canonical serialization of a value is a nonempty character list whose
head is never a closing bracket. -/
theorem canonChars_head : ∀ v : JValue, ∃ c t, canonChars v = c :: t ∧ c ≠ ']'
  | .null => ⟨'n', _, rfl, by decide⟩
  | .undef => ⟨'n', _, rfl, by decide⟩
  | .bool true => ⟨'t', _, rfl, by decide⟩
  | .bool false => ⟨'f', _, rfl, by decide⟩
  | .str s => ⟨'"', _, rfl, by decide⟩
  | .date _ => ⟨'\x7b', _, rfl, by decide⟩
  | .arr xs => ⟨'[', _, rfl, by decide⟩
  | .obj fs => ⟨'\x7b', _, rfl, by decide⟩
  | .num .nan => ⟨'n', _, rfl, by decide⟩
  | .num .inf => ⟨'n', _, rfl, by decide⟩
  | .num .ninf => ⟨'n', _, rfl, by decide⟩
  | .num (.int m) => by
    by_cases hm : m < 0
    · refine ⟨'-', natChars m.natAbs, ?_, by decide⟩
      show intChars m = _
      rw [intChars, if_pos hm]
    · obtain ⟨d, ds, hd, hdig⟩ := natChars_head m.natAbs
      refine ⟨d, ds, ?_, ?_⟩
      · show intChars m = _
        rw [intChars, if_neg hm, hd]
      · intro he
        subst he
        exact absurd hdig (by decide)

theorem canonStrChars_length (k : String) :
    (canonStrChars k).length = (escChars k.data).length + 2 := by
  simp [canonStrChars]

theorem insertObj_missing : ∀ (o : JObj) (k : String) (v : JValue),
    hasKeyObj o k = false → insertObj o k v = JObj.ofList (o.toList ++ [(k, v)])
  | .nil, k, v, _ => rfl
  | .cons k' v' tl, k, v, h => by
    rw [hasKeyObj] at h
    simp only [Bool.or_eq_false_iff] at h
    rw [insertObj, JObj.toList]
    simp [h.1, insertObj_missing tl k v h.2, JObj.ofList]

theorem toList_ofList : ∀ l : List (String × JValue), (JObj.ofList l).toList = l
  | [] => rfl
  | (k, v) :: t => by simp [JObj.ofList, JObj.toList, toList_ofList t]

theorem insertByKey_map_canon (p : String × JValue) :
    ∀ l : List (String × JValue),
      insertByKey (p.1, canonChars p.2) (l.map (fun q => (q.1, canonChars q.2))) =
        (insertByKey p l).map (fun q => (q.1, canonChars q.2))
  | [] => rfl
  | q :: t => by
    simp only [List.map_cons, insertByKey]
    cases h : strLe q.1 p.1 <;> simp [h, insertByKey_map_canon p t]

theorem sortByKey_map_canon :
    ∀ l : List (String × JValue),
      sortByKey (l.map (fun q => (q.1, canonChars q.2))) =
        (sortByKey l).map (fun q => (q.1, canonChars q.2))
  | [] => rfl
  | p :: t => by
    simp only [List.map_cons, sortByKey]
    rw [sortByKey_map_canon t, insertByKey_map_canon p]

theorem wfKeysArr_iff : ∀ xs : JArr, wfKeysArr xs = true ↔ ∀ v ∈ xs.toList, wfKeys v = true
  | .nil => by simp [wfKeysArr, JArr.toList]
  | .cons x xs => by
    simp only [wfKeysArr, JArr.toList, Bool.and_eq_true, List.mem_cons]
    rw [wfKeysArr_iff xs]
    constructor
    · rintro ⟨h1, h2⟩ v hv
      rcases hv with rfl | hv
      · exact h1
      · exact h2 v hv
    · intro h
      exact ⟨h x (Or.inl rfl), fun v hv => h v (Or.inr hv)⟩

theorem wfKeysVals_iff : ∀ fs : JObj,
    wfKeysVals fs = true ↔ ∀ p ∈ fs.toList, wfKeys p.2 = true
  | .nil => by simp [wfKeysVals, JObj.toList]
  | .cons k v fs => by
    simp only [wfKeysVals, JObj.toList, Bool.and_eq_true, List.mem_cons]
    rw [wfKeysVals_iff fs]
    constructor
    · rintro ⟨h1, h2⟩ p hp
      rcases hp with rfl | hp
      · exact h1
      · exact h2 p hp
    · intro h
      exact ⟨h (k, v) (Or.inl rfl), fun p hp => h p (Or.inr hp)⟩

theorem commaJoin_cons_ex (a : List Char) (as : List (List Char)) :
    ∃ t, commaJoin (a :: as) = a ++ t := by
  cases as with
  | nil => exact ⟨[], by simp [commaJoin]⟩
  | cons b bs => exact ⟨',' :: commaJoin (b :: bs), rfl⟩

theorem parseValue_bracket (fuel : Nat) (cs : List Char) (h : ∀ r, cs ≠ ']' :: r) :
    parseValue (fuel + 1) ('[' :: cs) =
      (parseElems fuel cs).map fun p => (JValue.arr p.1, p.2) := by
  rw [parseValue.eq_def]
  cases cs with
  | nil => simp
  | cons c r =>
    have hc : c ≠ ']' := by
      intro he
      exact h r (by rw [he])
    simp [hc]

theorem parseValue_brace (fuel : Nat) (cs : List Char) (h : ∀ r, cs ≠ '\x7d' :: r) :
    parseValue (fuel + 1) ('\x7b' :: cs) =
      (parseMembers fuel .nil cs).map fun p => (JValue.obj p.1, p.2) := by
  rw [parseValue.eq_def]
  cases cs with
  | nil => simp
  | cons c r =>
    have hc : c ≠ '\x7d' := by
      intro he
      exact h r (by rw [he])
    simp [hc]

/-- Parser/printer roundtrip, by induction on parser fuel: a canonical
serialization followed by any non-digit-headed remainder parses back to a
value with the identical canonical serialization (values: `parseValue`;
array element lists: `parseElems`; object member lists: `parseMembers`,
threading the accumulator object). -/
theorem parseRoundAux : ∀ fuel : Nat,
    (∀ (v : JValue) (rest : List Char), wfKeys v = true → headOkC rest →
      (canonChars v).length < fuel →
      ∃ w : JValue, parseValue fuel (canonChars v ++ rest) = some (w, rest) ∧
        canonChars w = canonChars v) ∧
    (∀ (l : List JValue) (rest : List Char), l ≠ [] →
      (∀ v ∈ l, wfKeys v = true) →
      (commaJoin (l.map canonChars)).length + 1 < fuel →
      ∃ ws : JArr, parseElems fuel (commaJoin (l.map canonChars) ++ ']' :: rest) =
        some (ws, rest) ∧ canonArr ws = l.map canonChars) ∧
    (∀ (sp : List (String × JValue)) (acc : JObj) (rest : List Char), sp ≠ [] →
      (∀ p ∈ sp, wfKeys p.2 = true) →
      ((acc.toList ++ sp).map Prod.fst).Nodup →
      (commaJoin (emitPairs (sp.map (fun p => (p.1, canonChars p.2))))).length + 1 < fuel →
      ∃ ws : List (String × JValue),
        parseMembers fuel acc
          (commaJoin (emitPairs (sp.map (fun p => (p.1, canonChars p.2)))) ++
            '\x7d' :: rest) = some (JObj.ofList (acc.toList ++ ws), rest) ∧
        ws.map (fun p => (p.1, canonChars p.2)) = sp.map (fun p => (p.1, canonChars p.2)))
  | 0 =>
    ⟨fun _ _ _ _ h => absurd h (Nat.not_lt_zero _),
     fun _ _ _ _ h => absurd h (Nat.not_lt_zero _),
     fun _ _ _ _ _ _ h => absurd h (Nat.not_lt_zero _)⟩
  | fuel + 1 => by
    obtain ⟨ihP, ihE, ihM⟩ := parseRoundAux fuel
    refine ⟨?_, ?_, ?_⟩
    · -- parseValue
      intro v rest hwf hrest hlen
      cases v with
      | null =>
        refine ⟨.null, ?_, rfl⟩
        rw [show canonChars .null ++ rest = 'n' :: ("ull".data ++ rest) from rfl,
          parseValue.eq_def]
        simp [stripPrefixCs]
      | undef =>
        refine ⟨.null, ?_, rfl⟩
        rw [show canonChars .undef ++ rest = 'n' :: ("ull".data ++ rest) from rfl,
          parseValue.eq_def]
        simp [stripPrefixCs]
      | bool b =>
        cases b
        · refine ⟨.bool false, ?_, rfl⟩
          rw [show canonChars (.bool false) ++ rest = 'f' :: ("alse".data ++ rest) from rfl,
            parseValue.eq_def]
          simp [stripPrefixCs]
        · refine ⟨.bool true, ?_, rfl⟩
          rw [show canonChars (.bool true) ++ rest = 't' :: ("rue".data ++ rest) from rfl,
            parseValue.eq_def]
          simp [stripPrefixCs]
      | num n =>
        cases n with
        | nan =>
          refine ⟨.null, ?_, rfl⟩
          rw [show canonChars (.num .nan) ++ rest = 'n' :: ("ull".data ++ rest) from rfl,
            parseValue.eq_def]
          simp [stripPrefixCs]
        | inf =>
          refine ⟨.null, ?_, rfl⟩
          rw [show canonChars (.num .inf) ++ rest = 'n' :: ("ull".data ++ rest) from rfl,
            parseValue.eq_def]
          simp [stripPrefixCs]
        | ninf =>
          refine ⟨.null, ?_, rfl⟩
          rw [show canonChars (.num .ninf) ++ rest = 'n' :: ("ull".data ++ rest) from rfl,
            parseValue.eq_def]
          simp [stripPrefixCs]
        | int m =>
          refine ⟨.num (.int m), ?_, rfl⟩
          have hpn := parseNumber_round m rest hrest
          by_cases hm : m < 0
          · rw [show canonChars (.num (.int m)) = intChars m from rfl, intChars,
              if_pos hm, List.cons_append, parseValue.eq_def]
            simp only [List.length_nil]
            rw [intChars, if_pos hm, List.cons_append] at hpn
            simpa using hpn
          · obtain ⟨d, ds, hd, hdig⟩ := natChars_head m.natAbs
            have h48 : 48 ≤ d.toNat ∧ d.toNat ≤ 57 := by
              simpa [isDigitChar, Bool.and_eq_true, decide_eq_true_eq] using hdig
            have hne1 : d ≠ 'n' := by
              intro he; subst he; exact absurd h48.2 (by decide)
            have hne2 : d ≠ 't' := by
              intro he; subst he; exact absurd h48.2 (by decide)
            have hne3 : d ≠ 'f' := by
              intro he; subst he; exact absurd h48.2 (by decide)
            have hne4 : d ≠ '"' := by
              intro he; subst he; exact absurd h48.1 (by decide)
            have hne5 : d ≠ '[' := by
              intro he; subst he; exact absurd h48.2 (by decide)
            have hne6 : d ≠ '\x7b' := by
              intro he; subst he; exact absurd h48.2 (by decide)
            rw [show canonChars (.num (.int m)) = intChars m from rfl, intChars,
              if_neg hm, hd, List.cons_append, parseValue.eq_def]
            rw [intChars, if_neg hm, hd, List.cons_append] at hpn
            simp [hne1, hne2, hne3, hne4, hne5, hne6, hpn]
      | str s =>
        refine ⟨.str ⟨s.data⟩, ?_, rfl⟩
        have hshape : canonChars (.str s) ++ rest
            = '"' :: (escChars s.data ++ '"' :: rest) := by
          show ('"' :: escChars s.data ++ ['"']) ++ rest = _
          simp
        rw [hshape, parseValue.eq_def]
        simp [parseStringBody_round s.data rest]
      | date ms =>
        refine ⟨.obj .nil, ?_, rfl⟩
        rw [show canonChars (.date ms) ++ rest = '\x7b' :: '\x7d' :: rest from rfl,
          parseValue.eq_def]
        simp
      | arr xs =>
        cases xs with
        | nil =>
          refine ⟨.arr .nil, ?_, rfl⟩
          rw [show canonChars (.arr .nil) ++ rest = '[' :: ']' :: rest from rfl,
            parseValue.eq_def]
          simp
        | cons x xs' =>
          have hwfl : ∀ u ∈ (JArr.cons x xs').toList, wfKeys u = true :=
            (wfKeysArr_iff _).mp hwf
          have h3 : (canonChars (.arr (.cons x xs'))).length
              = (commaJoin ((JArr.cons x xs').toList.map canonChars)).length + 2 := by
            rw [show canonChars (.arr (.cons x xs'))
              = ('[' :: commaJoin (canonArr (.cons x xs'))) ++ [']'] from rfl,
              canonArr_toList]
            simp
          have hb : (commaJoin ((JArr.cons x xs').toList.map canonChars)).length + 1
              < fuel := by omega
          obtain ⟨ws, hpe, hcanon⟩ :=
            ihE ((JArr.cons x xs').toList) rest (by simp [JArr.toList]) hwfl hb
          have hshape : canonChars (.arr (.cons x xs')) ++ rest
              = '[' :: (commaJoin ((JArr.cons x xs').toList.map canonChars) ++
                  ']' :: rest) := by
            rw [show canonChars (.arr (.cons x xs'))
              = ('[' :: commaJoin (canonArr (.cons x xs'))) ++ [']'] from rfl,
              canonArr_toList]
            simp
          have hnotbr : ∀ r,
              commaJoin ((JArr.cons x xs').toList.map canonChars) ++ ']' :: rest
                ≠ ']' :: r := by
            intro r heq
            obtain ⟨hc, ht, hcx, hnec⟩ := canonChars_head x
            obtain ⟨t0, ht0⟩ := commaJoin_cons_ex (canonChars x) (xs'.toList.map canonChars)
            rw [show (JArr.cons x xs').toList.map canonChars
              = canonChars x :: xs'.toList.map canonChars from rfl, ht0, hcx] at heq
            simp at heq
            exact hnec heq.1
          refine ⟨.arr ws, ?_, ?_⟩
          · rw [hshape, parseValue_bracket fuel _ hnotbr, hpe]
            rfl
          · rw [show canonChars (JValue.arr ws)
              = ('[' :: commaJoin (canonArr ws)) ++ [']'] from rfl,
              show canonChars (.arr (.cons x xs'))
              = ('[' :: commaJoin (canonArr (.cons x xs'))) ++ [']'] from rfl,
              hcanon, canonArr_toList]
      | obj fs =>
        cases fs with
        | nil =>
          refine ⟨.obj .nil, ?_, rfl⟩
          rw [show canonChars (.obj .nil) ++ rest = '\x7b' :: '\x7d' :: rest from rfl,
            parseValue.eq_def]
          simp
        | cons k0 v0 fs' =>
          have hwf2 : nodupKeysObj (JObj.cons k0 v0 fs') = true ∧
              wfKeysVals (JObj.cons k0 v0 fs') = true := by
            simpa [wfKeys, Bool.and_eq_true] using hwf
          set sp := sortByKey (JObj.cons k0 v0 fs').toList with hsp
          have hspperm : sp.Perm (JObj.cons k0 v0 fs').toList :=
            sortByKey_perm _
          have hspsorted : sp.Pairwise keyLe := sortByKey_sorted _
          have hspne : sp ≠ [] := by
            intro he
            have hl := hspperm.length_eq
            rw [he] at hl
            simp [JObj.toList] at hl
          have hnd : ((JObj.cons k0 v0 fs').toList.map Prod.fst).Nodup :=
            (nodupKeysObj_iff _).mp hwf2.1
          have hndsp : (sp.map Prod.fst).Nodup :=
            ((hspperm.map Prod.fst).nodup_iff).mpr hnd
          have hwfsp : ∀ p ∈ sp, wfKeys p.2 = true := fun p hp =>
            (wfKeysVals_iff _).mp hwf2.2 p (hspperm.subset hp)
          have hkey : sortByKey (canonObjPairs (JObj.cons k0 v0 fs'))
              = sp.map (fun p => (p.1, canonChars p.2)) := by
            rw [canonObjPairs_toList, sortByKey_map_canon, ← hsp]
          have h3 : (canonChars (.obj (.cons k0 v0 fs'))).length
              = (commaJoin (emitPairs (sp.map (fun p => (p.1, canonChars p.2))))).length
                + 2 := by
            rw [show canonChars (.obj (.cons k0 v0 fs'))
              = ('\x7b' :: commaJoin (emitPairs (sortByKey
                  (canonObjPairs (JObj.cons k0 v0 fs'))))) ++ ['\x7d'] from rfl, hkey]
            simp
          have hb : (commaJoin (emitPairs
              (sp.map (fun p => (p.1, canonChars p.2))))).length + 1 < fuel := by omega
          obtain ⟨ws, hpm, hws⟩ := ihM sp .nil rest hspne hwfsp (by simpa using hndsp) hb
          have hshape : canonChars (.obj (.cons k0 v0 fs')) ++ rest
              = '\x7b' :: (commaJoin (emitPairs
                  (sp.map (fun p => (p.1, canonChars p.2)))) ++ '\x7d' :: rest) := by
            rw [show canonChars (.obj (.cons k0 v0 fs'))
              = ('\x7b' :: commaJoin (emitPairs (sortByKey
                  (canonObjPairs (JObj.cons k0 v0 fs'))))) ++ ['\x7d'] from rfl, hkey]
            simp
          have hnotbr : ∀ r,
              commaJoin (emitPairs (sp.map (fun p => (p.1, canonChars p.2)))) ++
                '\x7d' :: rest ≠ '\x7d' :: r := by
            obtain ⟨q, sps, hq⟩ : ∃ q sps, sp = q :: sps := by
              cases hc : sp with
              | nil => exact absurd hc hspne
              | cons q sps => exact ⟨q, sps, rfl⟩
            intro r heq
            rw [hq] at heq
            rw [List.map_cons] at heq
            rw [show emitPairs ((q.1, canonChars q.2) ::
                sps.map (fun p => (p.1, canonChars p.2)))
              = (canonStrChars q.1 ++ ':' :: canonChars q.2) ::
                emitPairs (sps.map (fun p => (p.1, canonChars p.2))) from rfl] at heq
            obtain ⟨t0, ht0⟩ := commaJoin_cons_ex
              (canonStrChars q.1 ++ ':' :: canonChars q.2)
              (emitPairs (sps.map (fun p => (p.1, canonChars p.2))))
            rw [ht0] at heq
            simp [canonStrChars] at heq
          refine ⟨.obj (JObj.ofList ws), ?_, ?_⟩
          · rw [hshape, parseValue_brace fuel _ hnotbr, hpm]
            rfl
          · have hPsorted : (sp.map (fun p => (p.1, canonChars p.2))).Pairwise keyLe :=
              List.Pairwise.map _ (fun a b h => h) hspsorted
            have hPnd : ((sp.map (fun p => (p.1, canonChars p.2))).map Prod.fst).Nodup := by
              have he : (sp.map (fun p => (p.1, canonChars p.2))).map Prod.fst
                  = sp.map Prod.fst := by
                rw [List.map_map]; rfl
              rw [he]; exact hndsp
            have hss : sortByKey (sp.map (fun p => (p.1, canonChars p.2)))
                = sp.map (fun p => (p.1, canonChars p.2)) :=
              sortByKey_eq_self hPsorted hPnd
            rw [show canonChars (JValue.obj (JObj.ofList ws))
              = ('\x7b' :: commaJoin (emitPairs (sortByKey
                  (canonObjPairs (JObj.ofList ws))))) ++ ['\x7d'] from rfl,
              show canonChars (.obj (.cons k0 v0 fs'))
              = ('\x7b' :: commaJoin (emitPairs (sortByKey
                  (canonObjPairs (JObj.cons k0 v0 fs'))))) ++ ['\x7d'] from rfl,
              canonObjPairs_toList (JObj.ofList ws), toList_ofList, hws, hkey, hss]
    · -- parseElems
      intro l rest hne hwfl hbound
      obtain ⟨v, vs, rfl⟩ : ∃ v vs, l = v :: vs := by
        cases l with
        | nil => exact absurd rfl hne
        | cons v vs => exact ⟨v, vs, rfl⟩
      have hwv : wfKeys v = true := hwfl v (List.mem_cons_self v vs)
      cases vs with
      | nil =>
        have hcj : commaJoin ((v :: ([] : List JValue)).map canonChars)
            = canonChars v := rfl
        have hlenv : (canonChars v).length < fuel := by
          rw [hcj] at hbound; omega
        obtain ⟨w, hpv, hcw⟩ :=
          ihP v (']' :: rest) hwv (show isDigitChar ']' = false from rfl) hlenv
        refine ⟨.cons w .nil, ?_, ?_⟩
        · rw [hcj, parseElems.eq_def]
          simp [hpv]
        · simp [canonArr, hcw]
      | cons v2 vs2 =>
        have hcj : commaJoin ((v :: v2 :: vs2).map canonChars)
            = canonChars v ++ ',' :: commaJoin ((v2 :: vs2).map canonChars) := rfl
        have hlenv : (canonChars v).length < fuel ∧
            (commaJoin ((v2 :: vs2).map canonChars)).length + 1 < fuel := by
          rw [hcj] at hbound
          simp only [List.length_append, List.length_cons] at hbound
          omega
        obtain ⟨w, hpv, hcw⟩ := ihP v
          (',' :: (commaJoin ((v2 :: vs2).map canonChars) ++ ']' :: rest)) hwv
          (show isDigitChar ',' = false from rfl) hlenv.1
        obtain ⟨ws, hpe, hcs⟩ := ihE (v2 :: vs2) rest (by simp)
          (fun u hu => hwfl u (List.mem_cons_of_mem v hu)) hlenv.2
        refine ⟨.cons w ws, ?_, ?_⟩
        · have hshape : commaJoin ((v :: v2 :: vs2).map canonChars) ++ ']' :: rest
              = canonChars v ++
                ',' :: (commaJoin ((v2 :: vs2).map canonChars) ++ ']' :: rest) := by
            rw [hcj]; simp
          rw [hshape, parseElems.eq_def]
          simp only [List.map_cons] at hpv hpe
          simp [hpv, hpe]
        · simp [canonArr, hcw, hcs]
    · -- parseMembers
      intro sp acc rest hne hwfsp hnd hbound
      obtain ⟨q, sps, rfl⟩ : ∃ q sps, sp = q :: sps := by
        cases sp with
        | nil => exact absurd rfl hne
        | cons q sps => exact ⟨q, sps, rfl⟩
      obtain ⟨k, v⟩ := q
      have hkacc : hasKeyObj acc k = false := by
        by_contra hk
        have hk2 : hasKeyObj acc k = true := by
          revert hk; cases hasKeyObj acc k <;> simp
        have hmem := (hasKeyObj_iff acc k).mp hk2
        rw [List.map_append] at hnd
        exact (List.nodup_append.mp hnd).2.2 hmem (by simp)
      have hwv : wfKeys v = true := hwfsp (k, v) (List.mem_cons_self _ _)
      have hk2 : 2 ≤ (canonStrChars k).length := by
        rw [canonStrChars_length]; omega
      cases sps with
      | nil =>
        have hcj : commaJoin (emitPairs (((k, v) :: ([] : List (String × JValue))).map
              (fun p => (p.1, canonChars p.2))))
            = canonStrChars k ++ ':' :: canonChars v := rfl
        have hlenv : (canonChars v).length < fuel := by
          rw [hcj] at hbound
          simp only [List.length_append, List.length_cons] at hbound
          omega
        obtain ⟨w, hpv, hcw⟩ := ihP v ('\x7d' :: rest) hwv
          (show isDigitChar '\x7d' = false from rfl) hlenv
        refine ⟨[(k, w)], ?_, ?_⟩
        · have hshape : commaJoin (emitPairs
                (((k, v) :: ([] : List (String × JValue))).map
                  (fun p => (p.1, canonChars p.2)))) ++ '\x7d' :: rest
              = '"' :: (escChars k.data ++ '"' :: (':' :: (canonChars v ++
                  '\x7d' :: rest))) := by
            rw [hcj]; simp [canonStrChars]
          rw [hshape, parseMembers.eq_def]
          simp [parseStringBody_round k.data, hpv]
          rw [show (⟨k.data⟩ : String) = k from rfl,
            insertObj_missing acc k w hkacc]
        · simp [hcw]
      | cons q2 sps2 =>
        have hcj : commaJoin (emitPairs (((k, v) :: q2 :: sps2).map
              (fun p => (p.1, canonChars p.2))))
            = (canonStrChars k ++ ':' :: canonChars v) ++
              ',' :: commaJoin (emitPairs ((q2 :: sps2).map
                (fun p => (p.1, canonChars p.2)))) := rfl
        have hlenv : (canonChars v).length < fuel ∧
            (commaJoin (emitPairs ((q2 :: sps2).map
              (fun p => (p.1, canonChars p.2))))).length + 1 < fuel := by
          rw [hcj] at hbound
          simp only [List.length_append, List.length_cons] at hbound
          omega
        obtain ⟨w, hpv, hcw⟩ := ihP v
          (',' :: (commaJoin (emitPairs ((q2 :: sps2).map
            (fun p => (p.1, canonChars p.2)))) ++ '\x7d' :: rest)) hwv
          (show isDigitChar ',' = false from rfl) hlenv.1
        have hacc2 : insertObj acc k w = JObj.ofList (acc.toList ++ [(k, w)]) :=
          insertObj_missing acc k w hkacc
        have hnd2 : (((insertObj acc k w).toList ++ (q2 :: sps2)).map Prod.fst).Nodup := by
          rw [hacc2, toList_ofList]
          have he : ((acc.toList ++ [(k, w)]) ++ (q2 :: sps2)).map Prod.fst
              = (acc.toList ++ (k, v) :: q2 :: sps2).map Prod.fst := by
            simp
          rw [he]
          exact hnd
        obtain ⟨ws2, hpm, hws2⟩ := ihM (q2 :: sps2) (insertObj acc k w) rest (by simp)
          (fun p hp => hwfsp p (List.mem_cons_of_mem _ hp)) hnd2 hlenv.2
        refine ⟨(k, w) :: ws2, ?_, ?_⟩
        · have hshape : commaJoin (emitPairs (((k, v) :: q2 :: sps2).map
                (fun p => (p.1, canonChars p.2)))) ++ '\x7d' :: rest
              = '"' :: (escChars k.data ++ '"' :: (':' :: (canonChars v ++
                  ',' :: (commaJoin (emitPairs ((q2 :: sps2).map
                    (fun p => (p.1, canonChars p.2)))) ++ '\x7d' :: rest)))) := by
            rw [hcj]; simp [canonStrChars]
          rw [hshape, parseMembers.eq_def]
          simp only [List.map_cons] at hpv hpm
          rw [hacc2, toList_ofList] at hpm
          simp [parseStringBody_round k.data, hpv, hpm, hacc2]
        · simp [hcw, hws2]

/-- C6: idempotence of the canonical form — for every well-formed JSON value
`v` (unique keys at every object node, as every actual JS runtime value
satisfies), `isJCSCompliant (canonicalize v)` is `true`: reparsing the
canonical string and re-canonicalizing reproduces it byte for byte. -/
theorem canonical_form_idempotent (v : JValue) (hwf : wfKeys v = true) :
    isJCSCompliant (canonicalize v) = true := by
  obtain ⟨w, hpv, hcw⟩ :=
    (parseRoundAux ((canonChars v).length + 1)).1 v [] hwf trivial (Nat.lt_succ_self _)
  rw [List.append_nil] at hpv
  rw [isJCSCompliant, parseJson,
    show (canonicalize v).data = canonChars v from rfl, hpv]
  simp [canonicalize, hcw]

/-- Witness for C6 at the object `{b:2,a:"x"}` (keys out of order, so the
canonical string reorders them). -/
theorem canonical_form_idempotent_witness :
    wfKeys (JValue.obj (.cons "b" (.num (.int 2)) (.cons "a" (.str "x") .nil))) = true ∧
    isJCSCompliant (canonicalize
      (JValue.obj (.cons "b" (.num (.int 2)) (.cons "a" (.str "x") .nil)))) = true :=
  ⟨by decide, canonical_form_idempotent _ (by decide)⟩
